import Mathlib

/-!
Verification development for the `lock-free-sandbox` repository: sequential
(single-threaded) shallow embeddings of the four concurrent containers

* `refcount_stack`    (src/src/refcount_stack.hpp, "CountedPointerStack"),
* `refcounting_stack` (src/unnamed/part_002, the second split-count stack),
* `hp_stack`          (src/src/refcount_stack.hpp, "HazardPointerStack"),
* `lock_queue`        (src/src/lock_queue.hpp, "TwoLockQueue"),
* `mpmc_bounded_queue`(src/unnamed/part_002, "BoundedMPMCQueue"),

together with theorems settling the frozen claims about them.  Stateful C++
becomes explicit state passing; every atomic CAS loop is executed under the
single-threaded semantics (no interference, so a CAS on an unchanged location
succeeds on its first attempt); `size_t` becomes `Nat` reduced mod `2 ^ 64`
at every store, `int`/`atomic_int` becomes `Int` (the reference counts stay
far below `2 ^ 31` in every scenario considered, so 32-bit wrap-around never
fires), and `intptr_t` casts are the two's-complement reinterpretation of a
64-bit unsigned value.
-/

namespace LockFreeSandbox

/-- `2 ^ 64`, the modulus of `size_t` arithmetic on the 64-bit target. -/
def w64 : Nat := 2 ^ 64

/-- A `size_t` store: the value actually kept in a 64-bit unsigned object. -/
def sizet (n : Nat) : Nat := n % w64

/-- `intptr_t(n)` for a `size_t` value `n < 2 ^ 64`: two's-complement
reinterpretation as a signed 64-bit integer. -/
def intptr (n : Nat) : Int := if n < 2 ^ 63 then (n : Int) else (n : Int) - 2 ^ 64

/-- Result of one `pop(T *data)` call, as observed by the caller:
`ret` the returned `bool`, `res` the payload the pop extracted from the
container (the contents of the local `res`/`cell` value inside `pop`, if the
call removed an element), `written` the value written through the `data`
out-parameter (`none` when the call leaves `*data` untouched), `freed`
whether the removed node was `delete`d by this call (`none` when no node was
removed), and the container state after the call. -/
structure PopOut (T : Type) (S : Type) where
  ret : Bool
  res : Option T
  written : Option T
  freed : Option Bool
  state : S
deriving Repr, DecidableEq

/-! ## Split-reference-count reclamation arithmetic

`refcount_stack::pop` / `refcounting_stack::pop`, the two reclamation
branches.  `fetch_add` returns the previous value of `internal_count`; the
code deletes the node when that previous value equals the negation of the
addend.  On CAS success the addend is `count_increase = external_count - 2`;
on CAS failure it is `-1` (and the code tests `fetch_add(-1) == 1`). -/

/-- The reclamation step of `pop` on a claimed node: given whether the head
CAS succeeded, the claimed copy's `external_count`, and the node's current
`internal_count`, returns the new `internal_count` and whether the node was
deleted.  Translated from src/src/refcount_stack.hpp lines 110-131 and
src/unnamed/part_002 lines 233-250. -/
def pop_reclaim (casSucceeded : Bool) (external_count : Int) (internal_count : Int) :
    Int × Bool :=
  if casSucceeded then
    let count_increase := external_count - 2
    (internal_count + count_increase, internal_count == -count_increase)
  else
    (internal_count + (-1), internal_count == 1)

/-! ## `refcount_stack` (src/src/refcount_stack.hpp)

A node owns `shared_ptr<T> data` (`none` once swapped out), an
`atomic_int internal_count`, and a `counted_node_ptr next`; the `ptr` part of
`next` is represented positionally (the tail of the `chain` list), so only
its `external_count` part (`nextExt`) is stored in the node record.  The
atomic `head` is a `counted_node_ptr` whose `ptr` part is the `chain` list
and whose `external_count` is `headExt`.  The drivers place the stack in
static storage, so the otherwise-uninitialized `head` starts
zero-initialized: `{external_count = 0, ptr = nullptr}`. -/

/-- One stack node of `refcount_stack` / `refcounting_stack`. -/
structure RNode (T : Type) where
  data : Option T
  internal_count : Int
  nextExt : Int
deriving Repr, DecidableEq

/-- Sequential state of `refcount_stack<T>`: head external count, the chain
of nodes reachable from `head.ptr`, and the `size_t count_` field. -/
structure RStack (T : Type) where
  headExt : Int
  chain : List (RNode T)
  count : Nat
deriving Repr, DecidableEq

namespace RStack

/-- `refcount_stack()` with zero-initialized static `head`. -/
def init (T : Type) : RStack T := ⟨0, [], 0⟩

/-- `refcount_stack::push` (lines 76-88): `++count_`; allocate a node with
`internal_count = 0`, `external_count = 1`; copy the current `head` into the
node's `next`; CAS-install (succeeds at once single-threaded). -/
def push (s : RStack T) (v : T) : RStack T :=
  { headExt := 1
  , chain := ⟨some v, 0, s.headExt⟩ :: s.chain
  , count := sizet (s.count + 1) }

/-- `refcount_stack::pop` (lines 90-133), single-threaded execution:
`increase_head_count` bumps the head's `external_count` by one (its CAS loop
succeeds on the first unchanged-head attempt) and that bumped value is the
claimed `old_head.external_count`; a null `ptr` returns `false`; otherwise
the head CAS succeeds, the node's `data` is swapped out into `res`, the
reclamation arithmetic of `pop_reclaim` runs with `casSucceeded = true`, and
if `res` is non-null the value is written through `*data`, `--count_` runs,
and `true` is returned. -/
def pop (s : RStack T) : PopOut T (RStack T) :=
  let claimedExt : Int := s.headExt + 1
  match s.chain with
  | [] => ⟨false, none, none, none, { s with headExt := claimedExt }⟩
  | n :: rest =>
    let freed := (pop_reclaim true claimedExt n.internal_count).2
    match n.data with
    | some v =>
      ⟨true, some v, some v, some freed,
        ⟨n.nextExt, rest, sizet (s.count + (w64 - 1))⟩⟩
    | none =>
      ⟨false, none, none, some freed, ⟨n.nextExt, rest, s.count⟩⟩

/-- `refcount_stack::reinit` body: `while (pop(&data));`, with fuel.  Each
successful pop removes one node, so `chain.length` is enough fuel. -/
def reinitFuel : Nat → RStack T → RStack T
  | 0, s => s
  | Nat.succ fuel, s =>
    let r := s.pop
    if r.ret then reinitFuel fuel r.state else r.state

/-- `refcount_stack::reinit` (lines 69-74). -/
def reinit (s : RStack T) : RStack T := reinitFuel (s.chain.length + 1) s

/-- `refcount_stack::count` (line 67). -/
def countFn (s : RStack T) : Nat := s.count

end RStack

/-! ## `refcounting_stack` (src/unnamed/part_002, lines 122-253)

Same split-count algorithm, with a `bufsize_` constructor argument (stored,
never consulted), no `count_` field, a `push` that returns `bool`, and a
`pop` whose final lines are `data = res.get(); return res != nullptr;` —
the assignment targets the by-value pointer parameter, so the caller's
out-location is never written. -/

/-- Sequential state of `refcounting_stack<T>`. -/
structure RCStack (T : Type) where
  bufsize : Nat
  headExt : Int
  chain : List (RNode T)
deriving Repr, DecidableEq

namespace RCStack

/-- `refcounting_stack(size_t bufsize)` with zero-initialized static head. -/
def init (T : Type) (bufsize : Nat) : RCStack T := ⟨bufsize, 0, []⟩

/-- `refcounting_stack::push` (lines 196-208): like `RStack.push` but with no
`count_` and returning `true`. -/
def push (s : RCStack T) (v : T) : Bool × RCStack T :=
  (true, { s with headExt := 1, chain := ⟨some v, 0, s.headExt⟩ :: s.chain })

/-- `refcounting_stack::pop` (lines 210-252), single-threaded execution.
After the successful head CAS and the reclamation arithmetic, the code runs
`data = res.get(); return res != nullptr;`: the local parameter copy is
reassigned and nothing is stored through the caller's pointer, hence
`written = none` on every path. -/
def pop (s : RCStack T) : PopOut T (RCStack T) :=
  let claimedExt : Int := s.headExt + 1
  match s.chain with
  | [] => ⟨false, none, none, none, { s with headExt := claimedExt }⟩
  | n :: rest =>
    let freed := (pop_reclaim true claimedExt n.internal_count).2
    ⟨n.data.isSome, n.data, none, some freed,
      { s with headExt := n.nextExt, chain := rest }⟩

/-- `refcounting_stack::reinit` body `while (pop(&data));`, with fuel. -/
def reinitFuel : Nat → RCStack T → RCStack T
  | 0, s => s
  | Nat.succ fuel, s =>
    let r := s.pop
    if r.ret then reinitFuel fuel r.state else r.state

/-- `refcounting_stack::reinit` (lines 189-194). -/
def reinit (s : RCStack T) : RCStack T := reinitFuel (s.chain.length + 1) s

end RCStack

/-! ## `hp_stack` (src/src/refcount_stack.hpp, hazard-pointer part)

Sequentially a pop claims the calling thread's hazard slot, publishes the
head, CASes it off, clears the slot, and — since no other thread publishes a
hazard pointer — `outstanding_hazard_pointers_for(old_head)` is `false` and
the node is deleted immediately. -/

/-- Sequential state of `hp_stack<T>`: the `bufsize_` constructor argument
(stored, never consulted) and the chain of nodes from `head`. -/
structure HPStack (T : Type) where
  bufsize : Nat
  chain : List T
deriving Repr, DecidableEq

namespace HPStack

/-- `hp_stack(size_t bufsize)` (lines 291-294). -/
def init (T : Type) (bufsize : Nat) : HPStack T := ⟨bufsize, []⟩

/-- `hp_stack::push` (lines 310-317): CAS-linked insertion at head, always
returns `true`. -/
def push (s : HPStack T) (v : T) : Bool × HPStack T :=
  (true, { s with chain := v :: s.chain })

/-- `hp_stack::pop` (lines 319-357), single-threaded execution: the
hazard-publication loop stabilizes at once, the head CAS succeeds, the value
is written through `*data`, and the node is deleted immediately (its address
is in no hazard slot after `hp.store(nullptr)`). -/
def pop (s : HPStack T) : PopOut T (HPStack T) :=
  match s.chain with
  | [] => ⟨false, none, none, none, s⟩
  | v :: rest => ⟨true, some v, some v, some true, { s with chain := rest }⟩

/-- `hp_stack::reinit` body `while (pop(&data));`, with fuel. -/
def reinitFuel : Nat → HPStack T → HPStack T
  | 0, s => s
  | Nat.succ fuel, s =>
    let r := s.pop
    if r.ret then reinitFuel fuel r.state else r.state

/-- `hp_stack::reinit` (lines 303-308). -/
def reinit (s : HPStack T) : HPStack T := reinitFuel (s.chain.length + 1) s

end HPStack

/-! ## Hazard-pointer registry registration (`hp_owner::hp_owner`)

`s_hazard_pointers` is a fixed array of `s_max_hazard_pointers = 100` slots,
each an `{atomic<thread::id> id, atomic<void*> pointer}` pair; a slot is free
when its `id` is the default `std::thread::id()`.  The constructor scans the
slots in order, CAS-claiming the first free one for the calling thread, and
throws `std::runtime_error("No hazard pointers available")` when the scan
finds none.  A slot is modelled as `Option Nat`: `none` = free (default id),
`some t` = owned by live thread `t`. -/

/-- `s_max_hazard_pointers` (src/src/refcount_stack.hpp line 165). -/
def s_max_hazard_pointers : Nat := 100

/-- The scan loop of `hp_owner::hp_owner` (lines 178-188): starting at slot
`i`, return the index of the first free slot, or `none` when the remaining
slots are all taken.  `bound` is the number of slots still to examine. -/
def hpScan (slots : List (Option Nat)) : Option Nat :=
  go slots 0
where
  go : List (Option Nat) → Nat → Option Nat
    | [], _ => none
    | none :: _, i => some i
    | some _ :: rest, i => go rest (i + 1)

/-- `hp_owner::hp_owner` (lines 178-191): scan the registry; on success
return the claimed slot index, otherwise surface the fatal error (the thrown
`std::runtime_error`) immediately — no retry, no blocking wait. -/
def hp_owner_ctor (slots : List (Option Nat)) (tid : Nat) :
    Except String (Nat × List (Option Nat)) :=
  match hpScan slots with
  | some i => Except.ok (i, slots.set i (some tid))
  | none => Except.error "No hazard pointers available"

/-! ## `lock_queue` (src/src/lock_queue.hpp)

Sequential state: the values in the nodes strictly after `divider_`
(`pending`), the number of retired nodes between `first` and `divider_`
(`consumed`, freed by the next push), the `size_t count_`, and `bufsize_`.
Both spin locks are free between calls, so each `exchange(true)` acquires at
once. -/

/-- Sequential state of `lock_queue<T>`. -/
structure LQueue (T : Type) where
  pending : List T
  consumed : Nat
  count : Nat
  bufsize : Nat
deriving Repr, DecidableEq

namespace LQueue

/-- `lock_queue(size_t bufsize)` (lines 29-35): one sentinel node,
`first = divider_ = last`, `count_ = 0`, both locks free. -/
def init (T : Type) (bufsize : Nat) : LQueue T := ⟨[], 0, 0, bufsize⟩

/-- `lock_queue::push` (lines 70-94): `if (count_ == bufsize_) return false;`
before anything else; otherwise append a node after `last`, retire every node
strictly before `divider_`, `++count_`, return `true`. -/
def push (s : LQueue T) (v : T) : Bool × LQueue T :=
  if s.count == s.bufsize then (false, s)
  else
    (true, { s with pending := s.pending ++ [v], consumed := 0,
                    count := sizet (s.count + 1) })

/-- `lock_queue::pop` (lines 47-68): if `divider_->next` is non-null, move
that node's value out through `*result`, advance `divider_` (the passed node
joins the consumed region), `--count_`, return `true`; else return `false`. -/
def pop (s : LQueue T) : PopOut T (LQueue T) :=
  match s.pending with
  | [] => ⟨false, none, none, none, s⟩
  | v :: rest =>
    ⟨true, some v, some v, none,
      { s with pending := rest, consumed := s.consumed + 1,
               count := sizet (s.count + (w64 - 1)) }⟩

/-- `lock_queue::reinit` (lines 39-44): `cleanup()` deletes every node,
a fresh sentinel is installed, both locks are reset — but `count_` is left
at whatever value it had before the call (the source never resets it). -/
def reinit (s : LQueue T) : LQueue T :=
  { s with pending := [], consumed := 0 }

end LQueue

/-! ## `mpmc_bounded_queue` (src/unnamed/part_002, lines 13-109) -/

/-- One `cell_t`: the atomic `sequence_` (`size_t`) and the payload. -/
structure Cell (T : Type) where
  sequence : Nat
  data : T
deriving Repr, DecidableEq

/-- State of `mpmc_bounded_queue<T>`: the cell buffer, `buffer_mask_`,
`enqueue_pos_` and `dequeue_pos_` (all `size_t`). -/
structure MPMC (T : Type) where
  buffer : Array (Cell T)
  buffer_mask : Nat
  enqueue_pos : Nat
  dequeue_pos : Nat
deriving Repr, DecidableEq

namespace MPMC

/-- The construction-time assertion (line 31):
`assert((bufsize >= 2) && ((bufsize & (bufsize - 1)) == 0))`. -/
def assertOk (bufsize : Nat) : Bool :=
  decide (2 ≤ bufsize) && (bufsize &&& (bufsize - 1) == 0)

/-- The member-init list of the constructor (lines 26-29): the cell buffer of
the requested size is allocated (cells value-initialized: static storage, so
`sequence_ = 0` and default payload) and `buffer_mask_ = bufsize - 1`, before
the constructor body runs. -/
def alloc (T : Type) [Inhabited T] (bufsize : Nat) : MPMC T :=
  { buffer := Array.mkArray bufsize ⟨0, default⟩
  , buffer_mask := bufsize - 1
  , enqueue_pos := 0
  , dequeue_pos := 0 }

/-- The constructor (lines 26-33) up to and including the `assert`: the
buffer is allocated by the member-init list first, and only then is the
assertion evaluated in the body.  The `Bool` is the assertion's verdict. -/
def construct (T : Type) [Inhabited T] (bufsize : Nat) : MPMC T × Bool :=
  (alloc T bufsize, assertOk bufsize)

/-- `mpmc_bounded_queue::reinit` (lines 37-47): store `sequence_ = i` into
cell `i` for `i < bufsize` (payloads untouched), and zero both positions. -/
def reinit [Inhabited T] (s : MPMC T) : MPMC T :=
  { s with
    buffer := Array.ofFn fun i : Fin (s.buffer_mask + 1) =>
      { s.buffer.getD i.val ⟨0, default⟩ with sequence := i.val }
  , enqueue_pos := 0
  , dequeue_pos := 0 }

/-- A fully constructed queue: allocation followed by the `reinit()` call at
the end of the constructor body. -/
def make (T : Type) [Inhabited T] (bufsize : Nat) : MPMC T :=
  (alloc T bufsize).reinit

/-- `mpmc_bounded_queue::push` (lines 50-78), single-threaded execution of
the CAS loop.  `pos` is the loaded `enqueue_pos_`, the inspected cell is
`buffer_[pos & buffer_mask_]`, and `diff = intptr_t(seq) - intptr_t(pos)`.
`diff < 0`: return `false`.  `diff == 0`: the CAS on `enqueue_pos_` succeeds
(no interference), the payload is stored and `sequence_ = pos + 1`
published; return `true`.  `diff > 0`: the loop reloads `enqueue_pos_`,
which single-threaded is unchanged, so the loop never exits — modelled as
`none` (divergence). -/
def push [Inhabited T] (s : MPMC T) (v : T) : Option (Bool × MPMC T) :=
  let pos := s.enqueue_pos
  let i := pos &&& s.buffer_mask
  let seq := (s.buffer.getD i ⟨0, default⟩).sequence
  let diff : Int := intptr seq - intptr pos
  if diff < 0 then some (false, s)
  else if diff = 0 then
    some (true, { s with
      enqueue_pos := sizet (pos + 1)
      buffer := s.buffer.setD i ⟨sizet (pos + 1), v⟩ })
  else none

/-- `mpmc_bounded_queue::pop` (lines 81-108), single-threaded execution of
the CAS loop; mirror of `push` with `diff = intptr_t(seq) - intptr_t(pos+1)`
and the released sequence `pos + buffer_mask_ + 1`.  On success the cell's
payload is written through `*data`. -/
def pop [Inhabited T] (s : MPMC T) : Option (PopOut T (MPMC T)) :=
  let pos := s.dequeue_pos
  let i := pos &&& s.buffer_mask
  let cell := s.buffer.getD i ⟨0, default⟩
  let diff : Int := intptr cell.sequence - intptr (sizet (pos + 1))
  if diff < 0 then some ⟨false, none, none, none, s⟩
  else if diff = 0 then
    some ⟨true, some cell.data, some cell.data, none,
      { s with
        dequeue_pos := sizet (pos + 1)
        buffer := s.buffer.setD i ⟨sizet (pos + s.buffer_mask + 1), cell.data⟩ }⟩
  else none

end MPMC

/-! ## Operation traces

A driver issues a sequence of `push`/`pop` calls against one container; a
trace records, next to each operation, what the caller observed: the
returned `bool`, the value the call extracted from the container, and the
value written through the out-parameter. -/

/-- One operation issued by a caller (element type fixed to `int`, as in the
drivers). -/
inductive Op where
  | push : Int → Op
  | pop : Op
deriving Repr, DecidableEq

/-- The caller-visible observation of one operation. -/
structure OpRes where
  ret : Bool
  res : Option Int
  written : Option Int
deriving Repr, DecidableEq

/-- Values of the successful pushes in a trace. -/
def pushedList (tr : List (Op × OpRes)) : List Int :=
  tr.filterMap fun p =>
    match p.1 with
    | Op.push v => if p.2.ret then some v else none
    | Op.pop => none

/-- Values extracted by the successful pops in a trace. -/
def drainedList (tr : List (Op × OpRes)) : List Int :=
  tr.filterMap fun p =>
    match p.1 with
    | Op.pop => if p.2.ret then p.2.res else none
    | Op.push _ => none

/-- Caller-visible shape of a trace: for each call its returned `bool` and
the value written through the out-parameter. -/
def viewOf (tr : List (Op × OpRes)) : List (Bool × Option Int) :=
  tr.map fun p => (p.2.ret, p.2.written)

namespace RStack

/-- Values held by a `refcount_stack`, top first. -/
def contents (s : RStack Int) : List Int := s.chain.filterMap (·.data)

/-- One driver call against a `refcount_stack` (`push` returns `void`; a
trace records `true` for it). -/
def step (s : RStack Int) (o : Op) : OpRes × RStack Int :=
  match o with
  | Op.push v => (⟨true, none, none⟩, s.push v)
  | Op.pop =>
    let r := s.pop
    (⟨r.ret, r.res, r.written⟩, r.state)

/-- Trace of a call sequence against a `refcount_stack`. -/
def run : List Op → RStack Int → List (Op × OpRes) × RStack Int
  | [], s => ([], s)
  | o :: ops, s =>
    let p := s.step o
    let t := run ops p.2
    ((o, p.1) :: t.1, t.2)

end RStack

namespace RCStack

/-- Values held by a `refcounting_stack`, top first. -/
def contents (s : RCStack Int) : List Int := s.chain.filterMap (·.data)

/-- One driver call against a `refcounting_stack`. -/
def step (s : RCStack Int) (o : Op) : OpRes × RCStack Int :=
  match o with
  | Op.push v =>
    let p := s.push v
    (⟨p.1, none, none⟩, p.2)
  | Op.pop =>
    let r := s.pop
    (⟨r.ret, r.res, r.written⟩, r.state)

/-- Trace of a call sequence against a `refcounting_stack`. -/
def run : List Op → RCStack Int → List (Op × OpRes) × RCStack Int
  | [], s => ([], s)
  | o :: ops, s =>
    let p := s.step o
    let t := run ops p.2
    ((o, p.1) :: t.1, t.2)

end RCStack

namespace HPStack

/-- Values held by an `hp_stack`, top first. -/
def contents (s : HPStack Int) : List Int := s.chain

/-- One driver call against an `hp_stack`. -/
def step (s : HPStack Int) (o : Op) : OpRes × HPStack Int :=
  match o with
  | Op.push v =>
    let p := s.push v
    (⟨p.1, none, none⟩, p.2)
  | Op.pop =>
    let r := s.pop
    (⟨r.ret, r.res, r.written⟩, r.state)

/-- Trace of a call sequence against an `hp_stack`. -/
def run : List Op → HPStack Int → List (Op × OpRes) × HPStack Int
  | [], s => ([], s)
  | o :: ops, s =>
    let p := s.step o
    let t := run ops p.2
    ((o, p.1) :: t.1, t.2)

end HPStack

namespace LQueue

/-- Values held by a `lock_queue` (the nodes after `divider_`), front
first. -/
def contents (s : LQueue Int) : List Int := s.pending

/-- One driver call against a `lock_queue`. -/
def step (s : LQueue Int) (o : Op) : OpRes × LQueue Int :=
  match o with
  | Op.push v =>
    let p := s.push v
    (⟨p.1, none, none⟩, p.2)
  | Op.pop =>
    let r := s.pop
    (⟨r.ret, r.res, r.written⟩, r.state)

/-- Trace of a call sequence against a `lock_queue`. -/
def run : List Op → LQueue Int → List (Op × OpRes) × LQueue Int
  | [], s => ([], s)
  | o :: ops, s =>
    let p := s.step o
    let t := run ops p.2
    ((o, p.1) :: t.1, t.2)

end LQueue

namespace MPMC

/-- Values held by an `mpmc_bounded_queue`: the payloads of the cells for
the positions in `[dequeue_pos, enqueue_pos)`, front first. -/
def contents (s : MPMC Int) : List Int :=
  (List.range' s.dequeue_pos (s.enqueue_pos - s.dequeue_pos)).map
    fun p => (s.buffer.getD (p &&& s.buffer_mask) ⟨0, default⟩).data

/-- Sequential reachability invariant of a capacity-`2 ^ k` queue: the mask
and buffer size match the capacity, at most `2 ^ k` positions are in flight,
every in-flight position `p` (in `[dequeue_pos, enqueue_pos)`) has its
cell's sequence at `p + 1` (consumable), and every free position `p` (in
`[enqueue_pos, dequeue_pos + 2 ^ k)`) has its cell's sequence at `p`
(enqueuable).  Each cell index is covered exactly once because the window
`[dequeue_pos, dequeue_pos + 2 ^ k)` holds one representative of every
residue mod `2 ^ k`. -/
def Inv (k : Nat) (s : MPMC Int) : Prop :=
  s.buffer_mask = 2 ^ k - 1
  ∧ s.buffer.size = 2 ^ k
  ∧ s.dequeue_pos ≤ s.enqueue_pos
  ∧ s.enqueue_pos ≤ s.dequeue_pos + 2 ^ k
  ∧ (∀ p, s.dequeue_pos ≤ p → p < s.enqueue_pos →
      (s.buffer.getD (p % 2 ^ k) ⟨0, default⟩).sequence = p + 1)
  ∧ (∀ p, s.enqueue_pos ≤ p → p < s.dequeue_pos + 2 ^ k →
      (s.buffer.getD (p % 2 ^ k) ⟨0, default⟩).sequence = p)

/-- One driver call against an `mpmc_bounded_queue` (`none` = the call's
internal CAS loop does not terminate single-threaded). -/
def step (s : MPMC Int) (o : Op) : Option (OpRes × MPMC Int) :=
  match o with
  | Op.push v => (s.push v).map fun p => (⟨p.1, none, none⟩, p.2)
  | Op.pop => s.pop.map fun r => (⟨r.ret, r.res, r.written⟩, r.state)

/-- Trace of a call sequence against an `mpmc_bounded_queue`. -/
def run : List Op → MPMC Int → Option (List (Op × OpRes) × MPMC Int)
  | [], s => some ([], s)
  | o :: ops, s =>
    (s.step o).bind fun p => (run ops p.2).map fun t => ((o, p.1) :: t.1, t.2)

end MPMC

/-! ## Helper lemmas -/

/-- The scan loop of `hp_owner::hp_owner` finds no slot when every slot is
occupied. -/
theorem hpScan_go_eq_none (l : List (Option Nat)) (i : Nat)
    (h : ∀ o ∈ l, Option.isSome o) : hpScan.go l i = none := by
  induction l generalizing i with
  | nil => rfl
  | cons hd tl ih =>
    cases hd with
    | none => simpa using h none (List.Mem.head _)
    | some t => exact ih (i + 1) fun o ho => h o (List.Mem.tail _ ho)

/-- Moving a value pushed at the back of the remaining contents across an
accumulator: `(v :: A) ++ C` is a permutation of `A ++ (C ++ [v])`. -/
theorem perm_push_acc {α : Type} (v : α) (A C : List α) :
    ((v :: A) ++ C).Perm (A ++ (C ++ [v])) := by
  have h2 : A ++ (C ++ [v]) = (A ++ C) ++ [v] := (List.append_assoc A C [v]).symm
  rw [h2]
  exact (List.perm_append_singleton v (A ++ C)).symm

/-- `refcount_stack`: along any trace, the successful pushes together with
the remaining contents are a permutation of the drained values together with
the final contents, and every chain node keeps its payload. -/
theorem RStack.rstack_conservation (ops : List Op) : ∀ s : RStack Int,
    (∀ n ∈ s.chain, n.data.isSome) →
    (pushedList (RStack.run ops s).1 ++ s.contents).Perm
      (drainedList (RStack.run ops s).1 ++ (RStack.run ops s).2.contents)
    ∧ (∀ n ∈ (RStack.run ops s).2.chain, n.data.isSome) := by
  induction ops with
  | nil =>
    intro s hs
    exact ⟨by simp [RStack.run, pushedList, drainedList], hs⟩
  | cons o ops ih =>
    intro s hs
    cases o with
    | push v =>
      have hnext : ∀ n ∈ (s.push v).chain, n.data.isSome := by
        intro n hn
        rcases List.mem_cons.1 hn with h | h
        · subst h; rfl
        · exact hs n h
      obtain ⟨ih1, ih2⟩ := ih (s.push v) hnext
      refine ⟨?_, by simpa [RStack.run, RStack.step] using ih2⟩
      have hc : (s.push v).contents = v :: s.contents := by
        simp [RStack.push, RStack.contents]
      rw [hc] at ih1
      have ih1' := List.perm_middle.symm.trans ih1
      simpa [RStack.run, RStack.step, pushedList, drainedList,
        List.filterMap_cons] using ih1'
    | pop =>
      obtain ⟨he, ch, cnt⟩ := s
      cases ch with
      | nil =>
        obtain ⟨ih1, ih2⟩ := ih ⟨he + 1, [], cnt⟩ (by simp)
        refine ⟨?_, by simpa [RStack.run, RStack.step, RStack.pop] using ih2⟩
        simpa [RStack.run, RStack.step, RStack.pop, RStack.contents,
          pushedList, drainedList, List.filterMap_cons] using ih1
      | cons n rest =>
        obtain ⟨nd, nic, nne⟩ := n
        obtain ⟨v, hv⟩ := Option.isSome_iff_exists.1
          (hs ⟨nd, nic, nne⟩ (List.Mem.head _))
        subst hv
        have hrest : ∀ m ∈ rest, (RNode.data m).isSome :=
          fun m hm => hs m (List.Mem.tail _ hm)
        obtain ⟨ih1, ih2⟩ :=
          ih ⟨nne, rest, sizet (cnt + (w64 - 1))⟩ hrest
        refine ⟨?_, by simpa [RStack.run, RStack.step, RStack.pop] using ih2⟩
        have hc : RStack.contents ⟨he, ⟨some v, nic, nne⟩ :: rest, cnt⟩
            = v :: RStack.contents ⟨nne, rest, sizet (cnt + (w64 - 1))⟩ := by
          simp [RStack.contents]
        rw [hc]
        have ih1' := List.perm_middle.trans (ih1.cons v)
        simpa [RStack.run, RStack.step, RStack.pop, pushedList, drainedList,
          List.filterMap_cons] using ih1'

/-- `refcount_stack`: a pop reporting `false` can only happen on an empty
stack (all chain nodes still hold their payload). -/
theorem RStack.rstack_pop_false_empty (s : RStack Int)
    (hs : ∀ n ∈ s.chain, n.data.isSome) (h : s.pop.ret = false) :
    s.contents = [] := by
  obtain ⟨he, ch, cnt⟩ := s
  cases ch with
  | nil => simp [RStack.contents]
  | cons n rest =>
    obtain ⟨nd, nic, nne⟩ := n
    obtain ⟨v, hv⟩ := Option.isSome_iff_exists.1 (hs ⟨nd, nic, nne⟩ (List.Mem.head _))
    subst hv
    simp [RStack.pop] at h

/-- `refcounting_stack`: same conservation as `refcount_stack` (the values
extracted into the local `res` of `pop` account for every pushed value). -/
theorem RCStack.rcstack_conservation (ops : List Op) : ∀ s : RCStack Int,
    (∀ n ∈ s.chain, n.data.isSome) →
    (pushedList (RCStack.run ops s).1 ++ s.contents).Perm
      (drainedList (RCStack.run ops s).1 ++ (RCStack.run ops s).2.contents)
    ∧ (∀ n ∈ (RCStack.run ops s).2.chain, n.data.isSome) := by
  induction ops with
  | nil =>
    intro s hs
    exact ⟨by simp [RCStack.run, pushedList, drainedList], hs⟩
  | cons o ops ih =>
    intro s hs
    cases o with
    | push v =>
      have hnext : ∀ n ∈ (s.push v).2.chain, n.data.isSome := by
        intro n hn
        rcases List.mem_cons.1 hn with h | h
        · subst h; rfl
        · exact hs n h
      obtain ⟨ih1, ih2⟩ := ih (s.push v).2 hnext
      refine ⟨?_, by simpa [RCStack.run, RCStack.step] using ih2⟩
      have hc : (s.push v).2.contents = v :: s.contents := by
        simp [RCStack.push, RCStack.contents]
      rw [hc] at ih1
      have ih1' := List.perm_middle.symm.trans ih1
      simpa [RCStack.run, RCStack.step, RCStack.push, pushedList, drainedList,
        List.filterMap_cons] using ih1'
    | pop =>
      obtain ⟨bs, he, ch⟩ := s
      cases ch with
      | nil =>
        obtain ⟨ih1, ih2⟩ := ih ⟨bs, he + 1, []⟩ (by simp)
        refine ⟨?_, by simpa [RCStack.run, RCStack.step, RCStack.pop] using ih2⟩
        simpa [RCStack.run, RCStack.step, RCStack.pop, RCStack.contents,
          pushedList, drainedList, List.filterMap_cons] using ih1
      | cons n rest =>
        obtain ⟨nd, nic, nne⟩ := n
        obtain ⟨v, hv⟩ := Option.isSome_iff_exists.1
          (hs ⟨nd, nic, nne⟩ (List.Mem.head _))
        subst hv
        have hrest : ∀ m ∈ rest, (RNode.data m).isSome :=
          fun m hm => hs m (List.Mem.tail _ hm)
        obtain ⟨ih1, ih2⟩ := ih ⟨bs, nne, rest⟩ hrest
        refine ⟨?_, by simpa [RCStack.run, RCStack.step, RCStack.pop] using ih2⟩
        have hc : RCStack.contents ⟨bs, he, ⟨some v, nic, nne⟩ :: rest⟩
            = v :: RCStack.contents ⟨bs, nne, rest⟩ := by
          simp [RCStack.contents]
        rw [hc]
        have ih1' := List.perm_middle.trans (ih1.cons v)
        simpa [RCStack.run, RCStack.step, RCStack.pop, pushedList, drainedList,
          List.filterMap_cons] using ih1'

/-- `refcounting_stack`: a pop reporting `false` only happens on an empty
stack. -/
theorem RCStack.rcstack_pop_false_empty (s : RCStack Int)
    (hs : ∀ n ∈ s.chain, n.data.isSome) (h : s.pop.ret = false) :
    s.contents = [] := by
  obtain ⟨bs, he, ch⟩ := s
  cases ch with
  | nil => simp [RCStack.contents]
  | cons n rest =>
    obtain ⟨nd, nic, nne⟩ := n
    obtain ⟨v, hv⟩ := Option.isSome_iff_exists.1 (hs ⟨nd, nic, nne⟩ (List.Mem.head _))
    subst hv
    simp [RCStack.pop] at h

/-- `hp_stack`: conservation along any trace. -/
theorem HPStack.hpstack_conservation (ops : List Op) : ∀ s : HPStack Int,
    (pushedList (HPStack.run ops s).1 ++ s.contents).Perm
      (drainedList (HPStack.run ops s).1 ++ (HPStack.run ops s).2.contents) := by
  induction ops with
  | nil => intro s; simp [HPStack.run, pushedList, drainedList]
  | cons o ops ih =>
    intro s
    cases o with
    | push v =>
      have ih1 := ih (s.push v).2
      have hc : (s.push v).2.contents = v :: s.contents := by
        simp [HPStack.push, HPStack.contents]
      rw [hc] at ih1
      have ih1' := List.perm_middle.symm.trans ih1
      simpa [HPStack.run, HPStack.step, HPStack.push, pushedList, drainedList,
        List.filterMap_cons] using ih1'
    | pop =>
      obtain ⟨bs, ch⟩ := s
      cases ch with
      | nil =>
        simpa [HPStack.run, HPStack.step, HPStack.pop, HPStack.contents,
          pushedList, drainedList, List.filterMap_cons] using ih ⟨bs, []⟩
      | cons v rest =>
        have ih1 := ih ⟨bs, rest⟩
        have ih1' := List.perm_middle.trans (ih1.cons v)
        simpa [HPStack.run, HPStack.step, HPStack.pop, HPStack.contents,
          pushedList, drainedList, List.filterMap_cons] using ih1'

/-- `hp_stack`: a pop reporting `false` only happens on an empty stack. -/
theorem HPStack.hpstack_pop_false_empty (s : HPStack Int) (h : s.pop.ret = false) :
    s.contents = [] := by
  obtain ⟨bs, ch⟩ := s
  cases ch with
  | nil => rfl
  | cons v rest => simp [HPStack.pop] at h

/-- `lock_queue`: conservation along any trace. -/
theorem LQueue.lqueue_conservation (ops : List Op) : ∀ s : LQueue Int,
    (pushedList (LQueue.run ops s).1 ++ s.contents).Perm
      (drainedList (LQueue.run ops s).1 ++ (LQueue.run ops s).2.contents) := by
  induction ops with
  | nil => intro s; simp [LQueue.run, pushedList, drainedList]
  | cons o ops ih =>
    intro s
    cases o with
    | push v =>
      obtain ⟨pend, consd, cnt, bs⟩ := s
      by_cases hfull : cnt = bs
      · have hpush : LQueue.push ⟨pend, consd, cnt, bs⟩ v
            = (false, ⟨pend, consd, cnt, bs⟩) := by
          simp [LQueue.push, hfull]
        simpa [LQueue.run, LQueue.step, hpush, pushedList, drainedList,
          List.filterMap_cons] using ih ⟨pend, consd, cnt, bs⟩
      · have hpush : LQueue.push ⟨pend, consd, cnt, bs⟩ v
            = (true, ⟨pend ++ [v], 0, sizet (cnt + 1), bs⟩) := by
          simp [LQueue.push, hfull]
        have ih1 := ih ⟨pend ++ [v], 0, sizet (cnt + 1), bs⟩
        have hc : LQueue.contents ⟨pend ++ [v], 0, sizet (cnt + 1), bs⟩
            = pend ++ [v] := rfl
        rw [hc] at ih1
        have goal' := (perm_push_acc v
          (pushedList (LQueue.run ops ⟨pend ++ [v], 0, sizet (cnt + 1), bs⟩).1)
          pend).trans ih1
        simpa [LQueue.run, LQueue.step, hpush, pushedList, drainedList,
          List.filterMap_cons] using goal'
    | pop =>
      obtain ⟨pend, consd, cnt, bs⟩ := s
      cases pend with
      | nil =>
        simpa [LQueue.run, LQueue.step, LQueue.pop, LQueue.contents,
          pushedList, drainedList, List.filterMap_cons]
          using ih ⟨[], consd, cnt, bs⟩
      | cons v rest =>
        have ih1 := ih ⟨rest, consd + 1, sizet (cnt + (w64 - 1)), bs⟩
        have ih1' := List.perm_middle.trans (ih1.cons v)
        simpa [LQueue.run, LQueue.step, LQueue.pop, LQueue.contents,
          pushedList, drainedList, List.filterMap_cons] using ih1'

/-- `lock_queue`: a pop reporting `false` only happens on an empty queue. -/
theorem LQueue.lqueue_pop_false_empty (s : LQueue Int) (h : s.pop.ret = false) :
    s.contents = [] := by
  obtain ⟨pend, cons, cnt, bs⟩ := s
  cases pend with
  | nil => rfl
  | cons v rest => simp [LQueue.pop] at h

/-- A `size_t` store below `2 ^ 64` keeps its value. -/
theorem sizet_of_lt {n : Nat} (h : n < w64) : sizet n = n := Nat.mod_eq_of_lt h

/-- Traces decompose over concatenated call sequences (`refcount_stack`). -/
theorem RStack.rstack_run_append (l₁ l₂ : List Op) : ∀ s : RStack Int,
    RStack.run (l₁ ++ l₂) s
      = ((RStack.run l₁ s).1 ++ (RStack.run l₂ (RStack.run l₁ s).2).1,
         (RStack.run l₂ (RStack.run l₁ s).2).2) := by
  induction l₁ with
  | nil => intro s; simp [RStack.run]
  | cons o l₁ ih => intro s; simp [RStack.run, ih]

/-- Traces decompose over concatenated call sequences (`hp_stack`). -/
theorem HPStack.hpstack_run_append (l₁ l₂ : List Op) : ∀ s : HPStack Int,
    HPStack.run (l₁ ++ l₂) s
      = ((HPStack.run l₁ s).1 ++ (HPStack.run l₂ (HPStack.run l₁ s).2).1,
         (HPStack.run l₂ (HPStack.run l₁ s).2).2) := by
  induction l₁ with
  | nil => intro s; simp [HPStack.run]
  | cons o l₁ ih => intro s; simp [HPStack.run, ih]

/-- Traces decompose over concatenated call sequences (`lock_queue`). -/
theorem LQueue.lqueue_run_append (l₁ l₂ : List Op) : ∀ s : LQueue Int,
    LQueue.run (l₁ ++ l₂) s
      = ((LQueue.run l₁ s).1 ++ (LQueue.run l₂ (LQueue.run l₁ s).2).1,
         (LQueue.run l₂ (LQueue.run l₁ s).2).2) := by
  induction l₁ with
  | nil => intro s; simp [LQueue.run]
  | cons o l₁ ih => intro s; simp [LQueue.run, ih]

/-- `refcount_stack`: a block of pushes reports no failure, stacks the values
in reverse on top of the old contents, grows the chain accordingly, and
keeps every payload present. -/
theorem RStack.rstack_run_pushes (vs : List Int) : ∀ s : RStack Int,
    viewOf (RStack.run (vs.map Op.push) s).1 = vs.map (fun _ => (true, none))
    ∧ (RStack.run (vs.map Op.push) s).2.contents = vs.reverse ++ s.contents
    ∧ (RStack.run (vs.map Op.push) s).2.chain.length = vs.length + s.chain.length
    ∧ ((∀ n ∈ s.chain, n.data.isSome) →
        ∀ n ∈ (RStack.run (vs.map Op.push) s).2.chain, n.data.isSome) := by
  induction vs with
  | nil => intro s; exact ⟨rfl, by simp [RStack.run], by simp [RStack.run], fun h => h⟩
  | cons v vs ih =>
    intro s
    obtain ⟨ih1, ih2, ih3, ih4⟩ := ih (s.push v)
    have hnext : (∀ n ∈ s.chain, n.data.isSome) →
        ∀ n ∈ (s.push v).chain, n.data.isSome := by
      intro hs n hn
      rcases List.mem_cons.1 hn with h | h
      · subst h; rfl
      · exact hs n h
    refine ⟨?_, ?_, ?_, fun hs => ih4 (hnext hs)⟩
    · simpa [RStack.run, RStack.step, viewOf] using ih1
    · have hc : (s.push v).contents = v :: s.contents := by
        simp [RStack.push, RStack.contents]
      rw [hc] at ih2
      simpa [RStack.run, RStack.step, List.append_assoc] using ih2
    · have hl : (s.push v).chain.length = s.chain.length + 1 := by
        simp [RStack.push]
      rw [hl] at ih3
      simp only [List.map_cons, RStack.run, RStack.step, List.length_cons]
      rw [ih3]
      omega

/-- `refcount_stack`: draining a stack whose payloads are all present pops
the contents in order, then reports empty. -/
theorem RStack.rstack_run_pops : ∀ (ch : List (RNode Int)) (he : Int) (cnt : Nat),
    (∀ n ∈ ch, n.data.isSome) →
    viewOf (RStack.run (List.replicate (ch.length + 1) Op.pop) ⟨he, ch, cnt⟩).1
      = (RStack.contents ⟨he, ch, cnt⟩).map (fun x => (true, some x))
        ++ [(false, none)] := by
  intro ch
  induction ch with
  | nil =>
    intro he cnt h
    simp [RStack.run, RStack.step, RStack.pop, viewOf, RStack.contents]
  | cons n rest ih =>
    intro he cnt h
    obtain ⟨nd, nic, nne⟩ := n
    obtain ⟨v, hv⟩ := Option.isSome_iff_exists.1 (h _ (List.Mem.head _))
    subst hv
    have hrest : ∀ m ∈ rest, (RNode.data m).isSome :=
      fun m hm => h m (List.Mem.tail _ hm)
    have htail := ih nne (sizet (cnt + (w64 - 1))) hrest
    simp only [List.length_cons, List.replicate_succ, RStack.run, RStack.step,
      RStack.pop, viewOf, List.map_cons, RStack.contents, List.filterMap_cons]
      at htail ⊢
    simpa using htail

/-- `hp_stack`: a block of pushes reports no failure and stacks the values
in reverse on top of the old contents. -/
theorem HPStack.hpstack_run_pushes (vs : List Int) : ∀ s : HPStack Int,
    viewOf (HPStack.run (vs.map Op.push) s).1 = vs.map (fun _ => (true, none))
    ∧ (HPStack.run (vs.map Op.push) s).2.chain = vs.reverse ++ s.chain
    ∧ (HPStack.run (vs.map Op.push) s).2.bufsize = s.bufsize := by
  induction vs with
  | nil => intro s; exact ⟨rfl, by simp [HPStack.run], by simp [HPStack.run]⟩
  | cons v vs ih =>
    intro s
    obtain ⟨ih1, ih2, ih3⟩ := ih (s.push v).2
    refine ⟨?_, ?_, ?_⟩
    · simpa [HPStack.run, HPStack.step, HPStack.push, viewOf] using ih1
    · have hc : (s.push v).2.chain = v :: s.chain := rfl
      rw [hc] at ih2
      simpa [HPStack.run, HPStack.step, HPStack.push, List.append_assoc] using ih2
    · simpa [HPStack.run, HPStack.step, HPStack.push] using ih3

/-- `hp_stack`: draining pops the contents in order, then reports empty. -/
theorem HPStack.hpstack_run_pops : ∀ (ch : List Int) (bs : Nat),
    viewOf (HPStack.run (List.replicate (ch.length + 1) Op.pop) ⟨bs, ch⟩).1
      = ch.map (fun x => (true, some x)) ++ [(false, none)] := by
  intro ch
  induction ch with
  | nil =>
    intro bs
    simp [HPStack.run, HPStack.step, HPStack.pop, viewOf]
  | cons v rest ih =>
    intro bs
    have htail := ih bs
    simp only [List.length_cons, List.replicate_succ, HPStack.run, HPStack.step,
      HPStack.pop, viewOf, List.map_cons] at htail ⊢
    simpa using htail

/-- `lock_queue`: when there is room for all of them (and the `size_t` soft
counter cannot wrap), a block of pushes reports no failure and appends the
values in order, keeping the counter equal to the number of pending nodes. -/
theorem LQueue.lqueue_run_pushes (vs : List Int) : ∀ s : LQueue Int,
    s.count = s.pending.length → s.bufsize < w64 →
    s.pending.length + vs.length ≤ s.bufsize →
    viewOf (LQueue.run (vs.map Op.push) s).1 = vs.map (fun _ => (true, none))
    ∧ (LQueue.run (vs.map Op.push) s).2.pending = s.pending ++ vs
    ∧ (LQueue.run (vs.map Op.push) s).2.count
        = (LQueue.run (vs.map Op.push) s).2.pending.length
    ∧ (LQueue.run (vs.map Op.push) s).2.bufsize = s.bufsize := by
  induction vs with
  | nil =>
    intro s hcnt hbs _
    exact ⟨rfl, by simp [LQueue.run], by simpa [LQueue.run] using hcnt,
      by simp [LQueue.run]⟩
  | cons v vs ih =>
    intro s hcnt hbs hroom
    have hne : s.count ≠ s.bufsize := by
      rw [hcnt]
      simp only [List.length_cons] at hroom
      omega
    have hpush : s.push v
        = (true, ⟨s.pending ++ [v], 0, sizet (s.count + 1), s.bufsize⟩) := by
      simp [LQueue.push, hne]
    have hcnt' : sizet (s.count + 1) = s.pending.length + 1 := by
      rw [hcnt]
      exact sizet_of_lt (by simp only [List.length_cons] at hroom; omega)
    have harg1 : (⟨s.pending ++ [v], 0, sizet (s.count + 1), s.bufsize⟩
        : LQueue Int).count
        = (⟨s.pending ++ [v], 0, sizet (s.count + 1), s.bufsize⟩
            : LQueue Int).pending.length := by
      show sizet (s.count + 1) = (s.pending ++ [v]).length
      simp [hcnt']
    have harg3 : (⟨s.pending ++ [v], 0, sizet (s.count + 1), s.bufsize⟩
        : LQueue Int).pending.length + vs.length
        ≤ (⟨s.pending ++ [v], 0, sizet (s.count + 1), s.bufsize⟩
            : LQueue Int).bufsize := by
      show (s.pending ++ [v]).length + vs.length ≤ s.bufsize
      simp only [List.length_cons] at hroom
      simp only [List.length_append, List.length_cons, List.length_nil]
      omega
    obtain ⟨ih1, ih2, ih3, ih4⟩ :=
      ih ⟨s.pending ++ [v], 0, sizet (s.count + 1), s.bufsize⟩ harg1 hbs harg3
    refine ⟨?_, ?_, ?_, ?_⟩
    · simpa [LQueue.run, LQueue.step, hpush, viewOf] using ih1
    · rw [List.append_assoc] at ih2
      simpa [LQueue.run, LQueue.step, hpush] using ih2
    · simpa [LQueue.run, LQueue.step, hpush] using ih3
    · simpa [LQueue.run, LQueue.step, hpush] using ih4

/-- `lock_queue`: draining pops the pending values in order, then reports
empty. -/
theorem LQueue.lqueue_run_pops : ∀ (pend : List Int) (consd cnt bs : Nat),
    viewOf (LQueue.run (List.replicate (pend.length + 1) Op.pop)
        ⟨pend, consd, cnt, bs⟩).1
      = pend.map (fun x => (true, some x)) ++ [(false, none)] := by
  intro pend
  induction pend with
  | nil =>
    intro consd cnt bs
    simp [LQueue.run, LQueue.step, LQueue.pop, viewOf]
  | cons v rest ih =>
    intro consd cnt bs
    have htail := ih (consd + 1) (sizet (cnt + (w64 - 1))) bs
    simp only [List.length_cons, List.replicate_succ, LQueue.run, LQueue.step,
      LQueue.pop, viewOf, List.map_cons] at htail ⊢
    simpa using htail

/-- `intptr_t` reinterpretation is the identity below `2 ^ 63`. -/
theorem intptr_of_lt {n : Nat} (h : n < 2 ^ 63) : intptr n = n := if_pos h

/-- A window of `N` consecutive naturals holds at most one representative of
each residue class mod `N`. -/
theorem window_inj {N d p q : Nat} (hp1 : d ≤ p) (hp2 : p < d + N)
    (hq1 : d ≤ q) (hq2 : q < d + N) (hmod : p % N = q % N) : p = q := by
  rcases Nat.eq_zero_or_pos N with h0 | hN
  · omega
  · rcases le_total p q with hle | hle
    · have hdvd : N ∣ q - p := (Nat.modEq_iff_dvd' hle).1 hmod
      have := Nat.eq_zero_of_dvd_of_lt hdvd
      omega
    · have hdvd : N ∣ p - q := (Nat.modEq_iff_dvd' hle).1 hmod.symm
      have := Nat.eq_zero_of_dvd_of_lt hdvd
      omega

/-- `getD` after `setD` at the same (in-bounds) index. -/
theorem getD_setD_self {α : Type} (a : Array α) (i : Nat) (v d : α)
    (h : i < a.size) : (a.setD i v).getD i d = v := by
  rw [Array.getD_eq_get?, Array.getElem?_setD_eq a h v]
  rfl

/-- `getD` after `setD` at a different index. -/
theorem getD_setD_ne {α : Type} (a : Array α) (i j : Nat) (v d : α)
    (hij : i ≠ j) : (a.setD i v).getD j d = a.getD j d := by
  unfold Array.setD
  split
  · rw [Array.getD_eq_get?, Array.getD_eq_get?, Array.getElem?_set_ne]
    exact hij
  · rfl

/-- `getD` on an `ofFn` array at an in-bounds index. -/
theorem getD_ofFn {α : Type} {n : Nat} (f : Fin n → α) (i : Nat) (d : α)
    (h : i < n) : (Array.ofFn f).getD i d = f ⟨i, h⟩ := by
  rw [Array.getD_eq_get?, Array.getElem?_ofFn]
  simp [h]

/-- Splitting the last position off a `range'`. -/
theorem range'_concat (d m : Nat) :
    List.range' d (m + 1) = List.range' d m ++ [d + m] := by
  have h := List.range'_append_1 d m 1
  rw [List.range'_one] at h
  rw [Nat.add_comm m 1, ← h]

/-- A freshly constructed `mpmc_bounded_queue` of capacity `2 ^ k` satisfies
the ring invariant with both positions at 0 and no contents. -/
theorem MPMC.make_inv (k : Nat) :
    MPMC.Inv k (MPMC.make Int (2 ^ k))
    ∧ (MPMC.make Int (2 ^ k)).enqueue_pos = 0
    ∧ (MPMC.make Int (2 ^ k)).dequeue_pos = 0
    ∧ MPMC.contents (MPMC.make Int (2 ^ k)) = [] := by
  have hNpos : 0 < 2 ^ k := Nat.two_pow_pos k
  have hE : (MPMC.make Int (2 ^ k)).enqueue_pos = 0 := rfl
  have hD : (MPMC.make Int (2 ^ k)).dequeue_pos = 0 := rfl
  refine ⟨⟨rfl, ?_, by omega, by omega, ?_, ?_⟩, rfl, rfl, rfl⟩
  · show (Array.ofFn _).size = 2 ^ k
    rw [Array.size_ofFn]
    show 2 ^ k - 1 + 1 = 2 ^ k
    omega
  · intro p hp1 hp2
    rw [hE] at hp2
    omega
  · intro p hp1 hp2
    rw [hD] at hp2
    simp only [Nat.zero_add] at hp2
    have hmod : p % 2 ^ k = p := Nat.mod_eq_of_lt hp2
    rw [hmod]
    simp only [MPMC.make, MPMC.reinit, MPMC.alloc]
    rw [getD_ofFn _ p (⟨0, default⟩ : Cell Int) (by omega)]

/-- `mpmc_bounded_queue::push` on a non-full queue (single-threaded, with
positions far from `size_t` wrap-around): succeeds, appends the value, and
preserves the ring invariant. -/
theorem MPMC.push_ok (k : Nat) (s : MPMC Int) (v : Int)
    (hInv : MPMC.Inv k s) (hk : k ≤ 32) (he : s.enqueue_pos ≤ 2 ^ 62)
    (hroom : s.enqueue_pos < s.dequeue_pos + 2 ^ k) :
    ∃ s2, s.push v = some (true, s2)
      ∧ MPMC.Inv k s2
      ∧ s2.enqueue_pos = s.enqueue_pos + 1
      ∧ s2.dequeue_pos = s.dequeue_pos
      ∧ MPMC.contents s2 = MPMC.contents s ++ [v] := by
  obtain ⟨hmask, hsize, hde, hed, hfull, hfree⟩ := hInv
  have hNpos : 0 < 2 ^ k := Nat.two_pow_pos k
  have hidx : s.enqueue_pos &&& s.buffer_mask = s.enqueue_pos % 2 ^ k := by
    rw [hmask, Nat.and_pow_two_sub_one_eq_mod]
  have hseq : (s.buffer.getD (s.enqueue_pos % 2 ^ k) ⟨0, default⟩).sequence
      = s.enqueue_pos := hfree s.enqueue_pos (Nat.le_refl _) hroom
  have hlt63 : s.enqueue_pos < 2 ^ 63 := lt_of_le_of_lt he (by norm_num)
  have hsz1 : sizet (s.enqueue_pos + 1) = s.enqueue_pos + 1 :=
    sizet_of_lt (by unfold w64; omega)
  have hidxlt : s.enqueue_pos % 2 ^ k < s.buffer.size := by
    rw [hsize]; exact Nat.mod_lt _ hNpos
  refine ⟨{ s with enqueue_pos := s.enqueue_pos + 1, buffer := s.buffer.setD (s.enqueue_pos % 2 ^ k) ⟨s.enqueue_pos + 1, v⟩ }, ?_, ?_, rfl, rfl, ?_⟩
  · show MPMC.push s v = _
    simp only [MPMC.push]
    rw [hidx, hseq, hsz1, intptr_of_lt hlt63]
    simp
  · refine ⟨hmask, ?_, ?_, ?_, ?_, ?_⟩
    · show (s.buffer.setD (s.enqueue_pos % 2 ^ k) ⟨s.enqueue_pos + 1, v⟩).size = 2 ^ k
      rw [Array.size_setD]
      exact hsize
    · show s.dequeue_pos ≤ s.enqueue_pos + 1
      omega
    · show s.enqueue_pos + 1 ≤ s.dequeue_pos + 2 ^ k
      omega
    · intro p hp1 hp2
      have hp1' : s.dequeue_pos ≤ p := hp1
      have hp2' : p < s.enqueue_pos + 1 := hp2
      show ((s.buffer.setD (s.enqueue_pos % 2 ^ k) ⟨s.enqueue_pos + 1, v⟩).getD
        (p % 2 ^ k) (⟨0, default⟩ : Cell Int)).sequence = p + 1
      by_cases hpe : p = s.enqueue_pos
      · subst hpe
        rw [getD_setD_self _ _ _ _ hidxlt]
      · have hne : s.enqueue_pos % 2 ^ k ≠ p % 2 ^ k := by
          intro hmod
          exact hpe (window_inj hp1' (by omega) hde hroom hmod.symm)
        rw [getD_setD_ne _ _ _ _ _ hne]
        exact hfull p hp1' (by omega)
    · intro p hp1 hp2
      have hp1' : s.enqueue_pos + 1 ≤ p := hp1
      have hp2' : p < s.dequeue_pos + 2 ^ k := hp2
      show ((s.buffer.setD (s.enqueue_pos % 2 ^ k) ⟨s.enqueue_pos + 1, v⟩).getD
        (p % 2 ^ k) (⟨0, default⟩ : Cell Int)).sequence = p
      have hne : s.enqueue_pos % 2 ^ k ≠ p % 2 ^ k := by
        intro hmod
        have := window_inj hde hroom (by omega : s.dequeue_pos ≤ p) hp2' hmod
        omega
      rw [getD_setD_ne _ _ _ _ _ hne]
      exact hfree p (by omega) hp2'
  · show MPMC.contents _ = _
    unfold MPMC.contents
    have hlen : s.enqueue_pos + 1 - s.dequeue_pos
        = (s.enqueue_pos - s.dequeue_pos) + 1 := by omega
    simp only
    rw [hlen, range'_concat, List.map_append]
    have hback : s.dequeue_pos + (s.enqueue_pos - s.dequeue_pos)
        = s.enqueue_pos := by omega
    rw [hback]
    congr 1
    · apply List.map_congr_left
      intro p hp
      have hpb := List.mem_range'_1.1 hp
      have hne : s.enqueue_pos % 2 ^ k ≠ p % 2 ^ k := by
        intro hmod
        have := window_inj hde hroom hpb.1 (by omega) hmod
        omega
      rw [hmask, Nat.and_pow_two_sub_one_eq_mod, getD_setD_ne _ _ _ _ _ hne]
    · simp only [List.map_cons, List.map_nil]
      rw [hmask, Nat.and_pow_two_sub_one_eq_mod, getD_setD_self _ _ _ _ hidxlt]

/-- `mpmc_bounded_queue::push` on a full queue returns `false` immediately
(the inspected cell's sequence trails the enqueue position). -/
theorem MPMC.push_full (k : Nat) (s : MPMC Int) (v : Int)
    (hInv : MPMC.Inv k s) (hk1 : 1 ≤ k) (he : s.enqueue_pos ≤ 2 ^ 62)
    (hfq : s.enqueue_pos = s.dequeue_pos + 2 ^ k) :
    s.push v = some (false, s) := by
  obtain ⟨hmask, hsize, hde, hed, hfull, hfree⟩ := hInv
  have hN2 : 2 ≤ 2 ^ k := by
    calc 2 = 2 ^ 1 := rfl
    _ ≤ 2 ^ k := Nat.pow_le_pow_right (by omega) hk1
  have hidx : s.enqueue_pos &&& s.buffer_mask = s.enqueue_pos % 2 ^ k := by
    rw [hmask, Nat.and_pow_two_sub_one_eq_mod]
  have hmod : s.enqueue_pos % 2 ^ k = s.dequeue_pos % 2 ^ k := by
    rw [hfq]
    exact Nat.add_mod_right _ _
  have hdlt : s.dequeue_pos < s.enqueue_pos := by omega
  have hseq : (s.buffer.getD (s.dequeue_pos % 2 ^ k) ⟨0, default⟩).sequence
      = s.dequeue_pos + 1 := hfull s.dequeue_pos (Nat.le_refl _) hdlt
  have hd63 : s.dequeue_pos + 1 < 2 ^ 63 := by omega
  have he63 : s.enqueue_pos < 2 ^ 63 := by omega
  simp only [MPMC.push]
  rw [hidx, hmod, hseq, intptr_of_lt hd63, intptr_of_lt he63]
  have hneg : (↑(s.dequeue_pos + 1) : Int) - ↑s.enqueue_pos < 0 := by
    push_cast
    omega
  rw [if_pos hneg]

/-- `mpmc_bounded_queue::pop` on a non-empty queue (single-threaded, away
from wrap-around): succeeds, hands out the front value, and preserves the
ring invariant. -/
theorem MPMC.pop_ok (k : Nat) (s : MPMC Int)
    (hInv : MPMC.Inv k s) (hk : k ≤ 32) (he : s.enqueue_pos ≤ 2 ^ 62)
    (hne : s.dequeue_pos < s.enqueue_pos) :
    ∃ s2 x, s.pop = some ⟨true, some x, some x, none, s2⟩
      ∧ MPMC.Inv k s2
      ∧ s2.enqueue_pos = s.enqueue_pos
      ∧ s2.dequeue_pos = s.dequeue_pos + 1
      ∧ MPMC.contents s = x :: MPMC.contents s2 := by
  obtain ⟨hmask, hsize, hde, hed, hfull, hfree⟩ := hInv
  have hNpos : 0 < 2 ^ k := Nat.two_pow_pos k
  have hk32 : 2 ^ k ≤ 2 ^ 32 := Nat.pow_le_pow_right (by omega) hk
  have hidx : s.dequeue_pos &&& s.buffer_mask = s.dequeue_pos % 2 ^ k := by
    rw [hmask, Nat.and_pow_two_sub_one_eq_mod]
  have hseq : (s.buffer.getD (s.dequeue_pos % 2 ^ k) ⟨0, default⟩).sequence
      = s.dequeue_pos + 1 := hfull s.dequeue_pos (Nat.le_refl _) hne
  have hsz1 : sizet (s.dequeue_pos + 1) = s.dequeue_pos + 1 :=
    sizet_of_lt (by unfold w64; omega)
  have hd63 : s.dequeue_pos + 1 < 2 ^ 63 := by omega
  have hidxlt : s.dequeue_pos % 2 ^ k < s.buffer.size := by
    rw [hsize]; exact Nat.mod_lt _ hNpos
  have hrel : s.dequeue_pos + s.buffer_mask + 1 = s.dequeue_pos + 2 ^ k := by
    rw [hmask]; omega
  have hsz2 : sizet (s.dequeue_pos + 2 ^ k) = s.dequeue_pos + 2 ^ k :=
    sizet_of_lt (by unfold w64; omega)
  refine ⟨{ s with dequeue_pos := s.dequeue_pos + 1, buffer := s.buffer.setD (s.dequeue_pos % 2 ^ k) ⟨s.dequeue_pos + 2 ^ k, (s.buffer.getD (s.dequeue_pos % 2 ^ k) ⟨0, default⟩).data⟩ },
    (s.buffer.getD (s.dequeue_pos % 2 ^ k) ⟨0, default⟩).data, ?_, ?_, rfl, rfl, ?_⟩
  · show MPMC.pop s = _
    simp only [MPMC.pop]
    rw [hidx, hsz1, hseq, hrel, hsz2, intptr_of_lt hd63]
    simp
  · refine ⟨hmask, ?_, ?_, ?_, ?_, ?_⟩
    · show (s.buffer.setD _ _).size = 2 ^ k
      rw [Array.size_setD]
      exact hsize
    · show s.dequeue_pos + 1 ≤ s.enqueue_pos
      omega
    · show s.enqueue_pos ≤ s.dequeue_pos + 1 + 2 ^ k
      omega
    · intro p hp1 hp2
      have hp1' : s.dequeue_pos + 1 ≤ p := hp1
      have hp2' : p < s.enqueue_pos := hp2
      show ((s.buffer.setD (s.dequeue_pos % 2 ^ k) _).getD (p % 2 ^ k)
        (⟨0, default⟩ : Cell Int)).sequence = p + 1
      have hnemod : s.dequeue_pos % 2 ^ k ≠ p % 2 ^ k := by
        intro hmod
        have := window_inj (Nat.le_refl s.dequeue_pos) (by omega)
          (by omega : s.dequeue_pos ≤ p) (by omega) hmod
        omega
      rw [getD_setD_ne _ _ _ _ _ hnemod]
      exact hfull p (by omega) hp2'
    · intro p hp1 hp2
      have hp1' : s.enqueue_pos ≤ p := hp1
      have hp2' : p < s.dequeue_pos + 1 + 2 ^ k := hp2
      show ((s.buffer.setD (s.dequeue_pos % 2 ^ k) _).getD (p % 2 ^ k)
        (⟨0, default⟩ : Cell Int)).sequence = p
      by_cases hpd : p = s.dequeue_pos + 2 ^ k
      · subst hpd
        have hmodp : (s.dequeue_pos + 2 ^ k) % 2 ^ k = s.dequeue_pos % 2 ^ k :=
          Nat.add_mod_right _ _
        rw [hmodp, getD_setD_self _ _ _ _ hidxlt]
      · have hnemod : s.dequeue_pos % 2 ^ k ≠ p % 2 ^ k := by
          intro hmod
          have := window_inj (Nat.le_refl s.dequeue_pos) (by omega)
            (by omega : s.dequeue_pos ≤ p) (by omega) hmod
          omega
        rw [getD_setD_ne _ _ _ _ _ hnemod]
        exact hfree p hp1' (by omega)
  · show MPMC.contents s = _
    unfold MPMC.contents
    have hl : s.enqueue_pos - s.dequeue_pos
        = (s.enqueue_pos - (s.dequeue_pos + 1)) + 1 := by omega
    rw [hl, List.range'_succ]
    simp only [List.map_cons]
    congr 1
    · rw [hmask, Nat.and_pow_two_sub_one_eq_mod]
    · apply List.map_congr_left
      intro p hp
      have hpb := List.mem_range'_1.1 hp
      have hnemod : s.dequeue_pos % 2 ^ k ≠ p % 2 ^ k := by
        intro hmod
        have := window_inj (Nat.le_refl s.dequeue_pos) (by omega)
          (by omega : s.dequeue_pos ≤ p) (by omega) hmod
        omega
      rw [hmask, Nat.and_pow_two_sub_one_eq_mod, getD_setD_ne _ _ _ _ _ hnemod]

/-- `mpmc_bounded_queue::pop` on an empty queue returns `false` immediately
and leaves the state unchanged. -/
theorem MPMC.pop_empty (k : Nat) (s : MPMC Int)
    (hInv : MPMC.Inv k s) (he : s.enqueue_pos ≤ 2 ^ 62)
    (heq : s.dequeue_pos = s.enqueue_pos) :
    s.pop = some ⟨false, none, none, none, s⟩ := by
  obtain ⟨hmask, hsize, hde, hed, hfull, hfree⟩ := hInv
  have hNpos : 0 < 2 ^ k := Nat.two_pow_pos k
  have hidx : s.dequeue_pos &&& s.buffer_mask = s.dequeue_pos % 2 ^ k := by
    rw [hmask, Nat.and_pow_two_sub_one_eq_mod]
  have hseq : (s.buffer.getD (s.dequeue_pos % 2 ^ k) ⟨0, default⟩).sequence
      = s.dequeue_pos := hfree s.dequeue_pos (by omega) (by omega)
  have hsz1 : sizet (s.dequeue_pos + 1) = s.dequeue_pos + 1 :=
    sizet_of_lt (by unfold w64; omega)
  have hd63 : s.dequeue_pos < 2 ^ 63 := by omega
  have hd63' : s.dequeue_pos + 1 < 2 ^ 63 := by omega
  simp only [MPMC.pop]
  rw [hidx, hsz1, hseq, intptr_of_lt hd63, intptr_of_lt hd63']
  have hneg : (↑s.dequeue_pos : Int) - ↑(s.dequeue_pos + 1) < 0 := by
    push_cast
    omega
  rw [if_pos hneg]

/-- `mpmc_bounded_queue`: any call sequence whose length keeps the positions
far from `size_t` wrap-around runs to completion (every CAS loop terminates
single-threaded), preserves the ring invariant, and conserves values. -/
theorem MPMC.run_ok (k : Nat) (hk1 : 1 ≤ k) (hk : k ≤ 32) :
    ∀ (ops : List Op) (s : MPMC Int), MPMC.Inv k s →
    s.enqueue_pos + ops.length ≤ 2 ^ 62 →
    ∃ tr s2, MPMC.run ops s = some (tr, s2) ∧ MPMC.Inv k s2
      ∧ s2.enqueue_pos ≤ s.enqueue_pos + ops.length
      ∧ (pushedList tr ++ MPMC.contents s).Perm
          (drainedList tr ++ MPMC.contents s2) := by
  intro ops
  induction ops with
  | nil =>
    intro s hInv hbound
    exact ⟨[], s, rfl, hInv, by omega, by simp [pushedList, drainedList]⟩
  | cons o ops ih =>
    intro s hInv hbound
    simp only [List.length_cons] at hbound
    have he : s.enqueue_pos ≤ 2 ^ 62 := by omega
    cases o with
    | push v =>
      by_cases hfq : s.enqueue_pos < s.dequeue_pos + 2 ^ k
      · obtain ⟨s1, hpush, hInv1, hE1, hD1, hC1⟩ :=
          MPMC.push_ok k s v hInv hk he hfq
        obtain ⟨tr, s2, hrun, hInv2, hB2, hP2⟩ :=
          ih s1 hInv1 (by rw [hE1]; omega)
        refine ⟨(Op.push v, ⟨true, none, none⟩) :: tr, s2, ?_, hInv2, ?_, ?_⟩
        · simp [MPMC.run, MPMC.step, hpush, hrun]
        · rw [hE1] at hB2
          simp only [List.length_cons]
          omega
        · rw [hC1] at hP2
          have h := (perm_push_acc v (pushedList tr) (MPMC.contents s)).trans hP2
          simpa [pushedList, drainedList, List.filterMap_cons] using h
      · have hfq' : s.enqueue_pos = s.dequeue_pos + 2 ^ k := by
          have hed := hInv.2.2.2.1
          omega
        have hpush := MPMC.push_full k s v hInv hk1 he hfq'
        obtain ⟨tr, s2, hrun, hInv2, hB2, hP2⟩ := ih s hInv (by omega)
        refine ⟨(Op.push v, ⟨false, none, none⟩) :: tr, s2, ?_, hInv2, ?_, ?_⟩
        · simp [MPMC.run, MPMC.step, hpush, hrun]
        · simp only [List.length_cons]
          omega
        · simpa [pushedList, drainedList, List.filterMap_cons] using hP2
    | pop =>
      by_cases hne : s.dequeue_pos < s.enqueue_pos
      · obtain ⟨s1, x, hpop, hInv1, hE1, hD1, hC1⟩ :=
          MPMC.pop_ok k s hInv hk he hne
        obtain ⟨tr, s2, hrun, hInv2, hB2, hP2⟩ :=
          ih s1 hInv1 (by rw [hE1]; omega)
        refine ⟨(Op.pop, ⟨true, some x, some x⟩) :: tr, s2, ?_, hInv2, ?_, ?_⟩
        · simp [MPMC.run, MPMC.step, hpop, hrun]
        · rw [hE1] at hB2
          simp only [List.length_cons]
          omega
        · rw [hC1]
          have h := List.perm_middle.trans (hP2.cons x)
          simpa [pushedList, drainedList, List.filterMap_cons] using h
      · have heq : s.dequeue_pos = s.enqueue_pos := by
          have hde := hInv.2.2.1
          omega
        have hpop := MPMC.pop_empty k s hInv he heq
        obtain ⟨tr, s2, hrun, hInv2, hB2, hP2⟩ := ih s hInv (by omega)
        refine ⟨(Op.pop, ⟨false, none, none⟩) :: tr, s2, ?_, hInv2, ?_, ?_⟩
        · simp [MPMC.run, MPMC.step, hpop, hrun]
        · simp only [List.length_cons]
          omega
        · simpa [pushedList, drainedList, List.filterMap_cons] using hP2

/-- `mpmc_bounded_queue`: a pop that reports `false` only happens on an
empty queue. -/
theorem MPMC.mpmc_pop_false_empty (k : Nat) (s : MPMC Int)
    (r : PopOut Int (MPMC Int)) (hInv : MPMC.Inv k s) (hk : k ≤ 32)
    (he : s.enqueue_pos ≤ 2 ^ 62) (hp : s.pop = some r)
    (hr : r.ret = false) : MPMC.contents s = [] := by
  by_cases hne : s.dequeue_pos < s.enqueue_pos
  · obtain ⟨s2, x, hpop, _⟩ := MPMC.pop_ok k s hInv hk he hne
    rw [hpop] at hp
    have := Option.some.inj hp
    rw [← this] at hr
    simp at hr
  · have heq : s.dequeue_pos = s.enqueue_pos := by
      have hde := hInv.2.2.1
      omega
    unfold MPMC.contents
    rw [heq]
    simp

/-- `mpmc_bounded_queue`: a block of pushes that fits in the free space all
succeeds and appends the values in order. -/
theorem MPMC.mpmc_run_pushes (k : Nat) (hk1 : 1 ≤ k) (hk : k ≤ 32) :
    ∀ (vs : List Int) (s : MPMC Int), MPMC.Inv k s →
    s.enqueue_pos + vs.length ≤ 2 ^ 62 →
    s.enqueue_pos + vs.length ≤ s.dequeue_pos + 2 ^ k →
    ∃ tr s2, MPMC.run (vs.map Op.push) s = some (tr, s2)
      ∧ MPMC.Inv k s2
      ∧ viewOf tr = vs.map (fun _ => (true, none))
      ∧ MPMC.contents s2 = MPMC.contents s ++ vs
      ∧ s2.enqueue_pos = s.enqueue_pos + vs.length
      ∧ s2.dequeue_pos = s.dequeue_pos := by
  intro vs
  induction vs with
  | nil =>
    intro s hInv _ _
    exact ⟨[], s, rfl, hInv, rfl, by simp, by simp, rfl⟩
  | cons v vs ih =>
    intro s hInv hbound hroom
    simp only [List.length_cons] at hbound hroom
    obtain ⟨s1, hpush, hInv1, hE1, hD1, hC1⟩ :=
      MPMC.push_ok k s v hInv hk (by omega) (by omega)
    obtain ⟨tr, s2, hrun, hInv2, hview, hC2, hE2, hD2⟩ :=
      ih s1 hInv1 (by omega) (by rw [hE1, hD1]; omega)
    refine ⟨(Op.push v, ⟨true, none, none⟩) :: tr, s2, ?_, hInv2, ?_, ?_, ?_, ?_⟩
    · simp [MPMC.run, MPMC.step, hpush, hrun]
    · simpa [viewOf] using hview
    · rw [hC2, hC1]
      simp [List.append_assoc]
    · rw [hE2, hE1]
      simp only [List.length_cons]
      omega
    · rw [hD2, hD1]

/-- `mpmc_bounded_queue`: draining a queue holding `xs` pops `xs` in order
and then reports empty. -/
theorem MPMC.mpmc_run_pops (k : Nat) (hk : k ≤ 32) :
    ∀ (xs : List Int) (s : MPMC Int), MPMC.Inv k s →
    s.enqueue_pos ≤ 2 ^ 62 →
    MPMC.contents s = xs →
    ∃ tr s2, MPMC.run (List.replicate (xs.length + 1) Op.pop) s = some (tr, s2)
      ∧ viewOf tr = xs.map (fun x => (true, some x)) ++ [(false, none)] := by
  intro xs
  induction xs with
  | nil =>
    intro s hInv he hc
    have heq : s.dequeue_pos = s.enqueue_pos := by
      have hde := hInv.2.2.1
      unfold MPMC.contents at hc
      have := List.map_eq_nil_iff.1 hc
      have h0 := List.range'_eq_nil.1 this
      omega
    have hpop := MPMC.pop_empty k s hInv he heq
    refine ⟨[(Op.pop, ⟨false, none, none⟩)], s, ?_, rfl⟩
    simp [MPMC.run, MPMC.step, hpop]
  | cons x xs ih =>
    intro s hInv he hc
    have hne : s.dequeue_pos < s.enqueue_pos := by
      have hde := hInv.2.2.1
      rcases Nat.lt_or_ge s.dequeue_pos s.enqueue_pos with h | h
      · exact h
      · exfalso
        have heq : s.dequeue_pos = s.enqueue_pos := by omega
        unfold MPMC.contents at hc
        rw [heq] at hc
        simp at hc
    obtain ⟨s1, y, hpop, hInv1, hE1, hD1, hC1⟩ := MPMC.pop_ok k s hInv hk he hne
    rw [hc] at hC1
    have hy : y = x := (List.cons.injEq _ _ _ _ ▸ hC1.symm).1
    have hxs : MPMC.contents s1 = xs := by
      have := (List.cons.injEq _ _ _ _ ▸ hC1.symm).2
      exact this
    subst hy
    obtain ⟨tr, s2, hrun, hview⟩ := ih s1 hInv1 (by rw [hE1]; omega) hxs
    refine ⟨(Op.pop, ⟨true, some y, some y⟩) :: tr, s2, ?_, ?_⟩
    · show MPMC.run (Op.pop :: List.replicate (xs.length + 1) Op.pop) s = _
      generalize hL : List.replicate (xs.length + 1) Op.pop = L at hrun ⊢
      simp [MPMC.run, MPMC.step, hpop, hrun]
    · simpa [viewOf] using hview

/-- Traces decompose over concatenated call sequences (`mpmc_bounded_queue`,
given that the first block runs to completion). -/
theorem MPMC.mpmc_run_append (l₁ l₂ : List Op) :
    ∀ (s s1 : MPMC Int) (t1 : List (Op × OpRes)),
    MPMC.run l₁ s = some (t1, s1) →
    MPMC.run (l₁ ++ l₂) s
      = (MPMC.run l₂ s1).map fun t => (t1 ++ t.1, t.2) := by
  induction l₁ with
  | nil =>
    intro s s1 t1 h
    simp only [MPMC.run, Option.some.injEq, Prod.mk.injEq] at h
    obtain ⟨h1, h2⟩ := h
    subst h1
    subst h2
    simp only [List.nil_append]
    cases MPMC.run l₂ s <;> simp
  | cons o l₁ ih =>
    intro s s1 t1 h
    simp only [MPMC.run] at h
    cases hstep : s.step o with
    | none => rw [hstep] at h; simp at h
    | some p =>
      rw [hstep] at h
      simp only [Option.some_bind] at h
      cases hrun1 : MPMC.run l₁ p.2 with
      | none => rw [hrun1] at h; simp at h
      | some q =>
        rw [hrun1] at h
        simp only [Option.map_some', Option.some.injEq,
          Prod.mk.injEq] at h
        obtain ⟨h1, h2⟩ := h
        have hih := ih p.2 q.2 q.1 (by rw [hrun1])
        show MPMC.run (o :: (l₁ ++ l₂)) s = _
        simp only [MPMC.run, hstep, Option.some_bind, hih]
        subst h2
        cases MPMC.run l₂ q.2 <;> simp [← h1]

/-! ## Claim theorems -/

/-- Claim C1.  The claim states that whenever `pop(out)` returns `true` the
popped value has been written through `out`.  This holds for
`refcount_stack::pop` (src/src/refcount_stack.hpp: `*data = *res`), but
`refcounting_stack::pop` (src/unnamed/part_002) ends with
`data = res.get(); return res != nullptr;`, assigning the local copy of the
pointer parameter: on a one-element stack holding 7, `pop` returns `true`,
the element 7 is extracted into the local `res`, and nothing is written
through the caller's out-pointer. -/
theorem claim_C1_pop_writes_out :
    (((RCStack.init Int 128).push 7).2.pop.ret = true)
    ∧ (((RCStack.init Int 128).push 7).2.pop.written = none)
    ∧ (((RCStack.init Int 128).push 7).2.pop.res = some 7)
    ∧ (((RStack.init Int).push 7).pop.ret = true)
    ∧ (((RStack.init Int).push 7).pop.written = some 7) := by decide

/-- Claim C2.  The claim states that after `reinit()` every container's
bookkeeping equals the just-constructed state, including `lock_queue`'s soft
capacity counter.  `lock_queue::reinit` (src/src/lock_queue.hpp lines 39-44)
rebuilds the node list and resets both locks but never resets `count_`: on a
capacity-1 queue, after `push(5)` and `reinit()` the queue is empty
(`pop` returns `false`) yet `count_` still reads 1, so `push(6)` returns
`false` although on a freshly constructed queue it returns `true`. -/
theorem claim_C2_reinit_resets_bookkeeping :
    (((LQueue.init Int 1).push 5).1 = true)
    ∧ (((LQueue.init Int 1).push 5).2.reinit.pop.ret = false)
    ∧ (((LQueue.init Int 1).push 5).2.reinit.count = 1)
    ∧ ((((LQueue.init Int 1).push 5).2.reinit.push 6).1 = false)
    ∧ (((LQueue.init Int 1).push 6).1 = true) := by decide

/-- Claim C6.  On an `mpmc_bounded_queue` of capacity 4, five `push` calls
with no `pop` interleaved return `true, true, true, true, false`: exactly
one `false` among the five, the fifth one, and every call returns (the
single-threaded run of each CAS loop terminates, result `some`). -/
theorem claim_C6_bounded_capacity :
    (MPMC.run (([1, 2, 3, 4, 5] : List Int).map Op.push) (MPMC.make Int 4)).map
        (fun p => p.1.map fun q => q.2.ret)
      = some [true, true, true, true, false] := by decide

/-- Claim C7.  `lock_queue::push` returns `false` exactly when `count_`
equals `bufsize_` at the start of the call (the check precedes everything
else, src/src/lock_queue.hpp line 72), and a `false` return leaves the queue
completely unchanged: no node appended, `count_` untouched, so subsequent
pops see the same contents. -/
theorem claim_C7_twolock_push_full (s : LQueue Int) (v : Int) :
    ((s.push v).1 = false ↔ s.count = s.bufsize)
    ∧ ((s.push v).1 = false → (s.push v).2 = s) := by
  unfold LQueue.push
  by_cases h : s.count = s.bufsize <;> simp [h]

/-- Witness for C7 at a concrete full queue. -/
theorem claim_C7_witness :
    ((⟨[5], 0, 1, 1⟩ : LQueue Int).push 9).2 = ⟨[5], 0, 1, 1⟩ :=
  (claim_C7_twolock_push_full ⟨[5], 0, 1, 1⟩ 9).2 (by decide)

/-- Claim C8.  Registering a thread against the hazard-pointer registry
(`hp_owner::hp_owner`, run on a thread's first `hp_stack::pop`) while all
`s_max_hazard_pointers = 100` slots are held by other live threads fails
immediately with the thrown `std::runtime_error` — the constructor is one
bounded scan of the table, with no retry and no blocking wait. -/
theorem claim_C8_registry_exhaustion (slots : List (Option Nat)) (tid : Nat)
    (hlen : slots.length = s_max_hazard_pointers)
    (hfull : ∀ o ∈ slots, Option.isSome o) :
    hp_owner_ctor slots tid = Except.error "No hazard pointers available" := by
  unfold hp_owner_ctor hpScan
  rw [hpScan_go_eq_none slots 0 hfull]

/-- Witness for C8: a table of 100 occupied slots. -/
theorem claim_C8_witness :
    hp_owner_ctor (List.replicate s_max_hazard_pointers (some 1)) 0
      = Except.error "No hazard pointers available" :=
  claim_C8_registry_exhaustion _ 0 (by decide) (by decide)

/-- Claim C9.  Split-count reclamation arithmetic of `pop`: after a
successful head CAS with claimed external count `c` the thread adds `c - 2`
to `internal_count` and the node is freed iff the resulting count is exactly
zero (the code's test `fetch_add(count_increase) == -count_increase`
compares the previous value against the negated addend); after a failed CAS
it adds `-1` and frees iff that decrement reaches exactly zero (the code's
test `fetch_add(-1) == 1`). -/
theorem claim_C9_split_count_arithmetic (c i : Int) :
    ((pop_reclaim true c i).1 = i + (c - 2))
    ∧ ((pop_reclaim true c i).2 = true ↔ (pop_reclaim true c i).1 = 0)
    ∧ ((pop_reclaim true c i).2 = true ↔ i = -(c - 2))
    ∧ ((pop_reclaim false c i).1 = i + (-1))
    ∧ ((pop_reclaim false c i).2 = true ↔ (pop_reclaim false c i).1 = 0)
    ∧ ((pop_reclaim false c i).2 = true ↔ i = 1) := by
  refine ⟨rfl, ?_, ?_, rfl, ?_, ?_⟩ <;> simp [pop_reclaim, beq_iff_eq] <;> omega

/-- Witness for C9: the single-threaded one-element pop (claimed external
count 2, internal count 0) frees the node; a failed CAS with internal count
1 frees it as well. -/
theorem claim_C9_witness :
    (pop_reclaim true 2 0).2 = true ∧ (pop_reclaim false 3 1).2 = true :=
  ⟨((claim_C9_split_count_arithmetic 2 0).2.2.1).mpr (by decide),
   ((claim_C9_split_count_arithmetic 3 1).2.2.2.2.2).mpr (by decide)⟩

/-- Claim C10.  `mpmc_bounded_queue`'s constructor asserts
`bufsize >= 2 && (bufsize & (bufsize - 1)) == 0`; every capacity below 2
fails it — including 1, which passes the power-of-two conjunct — and the
assertion runs in the constructor body, after the member-init list has
already allocated the cell buffer of the requested size. -/
theorem claim_C10_ctor_capacity (bufsize : Nat) (h : bufsize < 2) :
    ((MPMC.construct Int bufsize).2 = false)
    ∧ ((MPMC.construct Int bufsize).1.buffer.size = bufsize)
    ∧ (MPMC.assertOk 1 = false)
    ∧ (((1 : Nat) &&& (1 - 1) == 0) = true) := by
  refine ⟨?_, ?_, by decide, by decide⟩
  · interval_cases bufsize <;> decide
  · simp [MPMC.construct, MPMC.alloc]

/-- Witness for C10 at capacity 1. -/
theorem claim_C10_witness :
    ((MPMC.construct Int 1).2 = false)
    ∧ ((MPMC.construct Int 1).1.buffer.size = 1)
    ∧ (MPMC.assertOk 1 = false)
    ∧ (((1 : Nat) &&& (1 - 1) == 0) = true) :=
  claim_C10_ctor_capacity 1 (by decide)

/-- Claim C3.  Conservation, single-threaded: for every call sequence against
a freshly constructed container, the multiset of successfully pushed values
equals the multiset of values drained by the successful pops plus the
multiset still held; and when the container reports empty (a pop returning
`false`) nothing is held, so drained = pushed.  Proved for both split-count
stacks, the hazard-pointer stack, the two-lock queue (any soft capacity),
and the bounded MPMC queue (any power-of-two capacity
`2 ^ k`, `1 ≤ k ≤ 32`, call sequences up to `2 ^ 62` operations, so that
`size_t` positions never wrap; every such sequence also runs to
completion). -/
theorem claim_C3_conservation :
    (∀ ops : List Op,
      ((pushedList (RStack.run ops (RStack.init Int)).1 : Multiset Int)
          = (drainedList (RStack.run ops (RStack.init Int)).1 : Multiset Int)
            + ((RStack.run ops (RStack.init Int)).2.contents : Multiset Int))
      ∧ ((RStack.run ops (RStack.init Int)).2.pop.ret = false →
          (RStack.run ops (RStack.init Int)).2.contents = []))
    ∧ (∀ (b : Nat) (ops : List Op),
      ((pushedList (RCStack.run ops (RCStack.init Int b)).1 : Multiset Int)
          = (drainedList (RCStack.run ops (RCStack.init Int b)).1 : Multiset Int)
            + ((RCStack.run ops (RCStack.init Int b)).2.contents : Multiset Int))
      ∧ ((RCStack.run ops (RCStack.init Int b)).2.pop.ret = false →
          (RCStack.run ops (RCStack.init Int b)).2.contents = []))
    ∧ (∀ (b : Nat) (ops : List Op),
      ((pushedList (HPStack.run ops (HPStack.init Int b)).1 : Multiset Int)
          = (drainedList (HPStack.run ops (HPStack.init Int b)).1 : Multiset Int)
            + ((HPStack.run ops (HPStack.init Int b)).2.contents : Multiset Int))
      ∧ ((HPStack.run ops (HPStack.init Int b)).2.pop.ret = false →
          (HPStack.run ops (HPStack.init Int b)).2.contents = []))
    ∧ (∀ (b : Nat) (ops : List Op),
      ((pushedList (LQueue.run ops (LQueue.init Int b)).1 : Multiset Int)
          = (drainedList (LQueue.run ops (LQueue.init Int b)).1 : Multiset Int)
            + ((LQueue.run ops (LQueue.init Int b)).2.contents : Multiset Int))
      ∧ ((LQueue.run ops (LQueue.init Int b)).2.pop.ret = false →
          (LQueue.run ops (LQueue.init Int b)).2.contents = []))
    ∧ (∀ (k : Nat) (ops : List Op), 1 ≤ k → k ≤ 32 → ops.length ≤ 2 ^ 62 →
      ∃ tr s2, MPMC.run ops (MPMC.make Int (2 ^ k)) = some (tr, s2)
        ∧ ((pushedList tr : Multiset Int)
            = (drainedList tr : Multiset Int) + (MPMC.contents s2 : Multiset Int))
        ∧ (∀ r, s2.pop = some r → r.ret = false → MPMC.contents s2 = [])) := by
  refine ⟨?_, ?_, ?_, ?_, ?_⟩
  · intro ops
    obtain ⟨hperm, hsome⟩ :=
      RStack.rstack_conservation ops (RStack.init Int) (by simp [RStack.init])
    refine ⟨?_, fun hfalse => RStack.rstack_pop_false_empty _ hsome hfalse⟩
    have h : (pushedList (RStack.run ops (RStack.init Int)).1 ++ []).Perm
        (drainedList (RStack.run ops (RStack.init Int)).1
          ++ (RStack.run ops (RStack.init Int)).2.contents) := hperm
    simpa using h
  · intro b ops
    obtain ⟨hperm, hsome⟩ :=
      RCStack.rcstack_conservation ops (RCStack.init Int b) (by simp [RCStack.init])
    refine ⟨?_, fun hfalse => RCStack.rcstack_pop_false_empty _ hsome hfalse⟩
    have h : (pushedList (RCStack.run ops (RCStack.init Int b)).1 ++ []).Perm
        (drainedList (RCStack.run ops (RCStack.init Int b)).1
          ++ (RCStack.run ops (RCStack.init Int b)).2.contents) := hperm
    simpa using h
  · intro b ops
    have hperm := HPStack.hpstack_conservation ops (HPStack.init Int b)
    refine ⟨?_, fun hfalse => HPStack.hpstack_pop_false_empty _ hfalse⟩
    have h : (pushedList (HPStack.run ops (HPStack.init Int b)).1 ++ []).Perm
        (drainedList (HPStack.run ops (HPStack.init Int b)).1
          ++ (HPStack.run ops (HPStack.init Int b)).2.contents) := hperm
    simpa using h
  · intro b ops
    have hperm := LQueue.lqueue_conservation ops (LQueue.init Int b)
    refine ⟨?_, fun hfalse => LQueue.lqueue_pop_false_empty _ hfalse⟩
    have h : (pushedList (LQueue.run ops (LQueue.init Int b)).1 ++ []).Perm
        (drainedList (LQueue.run ops (LQueue.init Int b)).1
          ++ (LQueue.run ops (LQueue.init Int b)).2.contents) := hperm
    simpa using h
  · intro k ops hk1 hk hlen
    obtain ⟨hInvM, hE0, hD0, hC0⟩ := MPMC.make_inv k
    obtain ⟨tr, s2, hrun, hInv2, hB2, hP2⟩ :=
      MPMC.run_ok k hk1 hk ops _ hInvM (by rw [hE0]; omega)
    rw [hE0] at hB2
    refine ⟨tr, s2, hrun, ?_, ?_⟩
    · rw [hC0] at hP2
      simpa using hP2
    · intro r hpop hret
      exact MPMC.mpmc_pop_false_empty k s2 r hInv2 hk (by omega) hpop hret

/-- Witness for C3: after pushing 5 and draining, the stack reports empty
and indeed holds nothing. -/
theorem claim_C3_witness :
    (RStack.run [Op.push 5, Op.pop] (RStack.init Int)).2.contents = [] :=
  (claim_C3_conservation.1 [Op.push 5, Op.pop]).2 (by decide)

/-- Claim C4.  LIFO order, single-threaded (single non-overlapping
producer/consumer): pushing `vs` and then popping `|vs| + 1` times on
`refcount_stack` or `hp_stack` pops exactly `vs` in reverse and then
reports empty; in particular pushes of 1, 2, 3 on the counted-pointer stack
are drained as 3, 2, 1 and then a pop returns `false`. -/
theorem claim_C4_lifo :
    (∀ vs : List Int,
      viewOf (RStack.run (vs.map Op.push ++ List.replicate (vs.length + 1)
          Op.pop) (RStack.init Int)).1
        = vs.map (fun _ => (true, none))
          ++ (vs.reverse.map (fun x => (true, some x)) ++ [(false, none)]))
    ∧ (∀ (b : Nat) (vs : List Int),
      viewOf (HPStack.run (vs.map Op.push ++ List.replicate (vs.length + 1)
          Op.pop) (HPStack.init Int b)).1
        = vs.map (fun _ => (true, none))
          ++ (vs.reverse.map (fun x => (true, some x)) ++ [(false, none)]))
    ∧ viewOf (RStack.run ([Op.push 1, Op.push 2, Op.push 3]
          ++ List.replicate 4 Op.pop) (RStack.init Int)).1
        = [(true, none), (true, none), (true, none),
           (true, some 3), (true, some 2), (true, some 1), (false, none)] := by
  refine ⟨?_, ?_, by decide⟩
  · intro vs
    obtain ⟨hview, hcont, hlen, hsome⟩ := RStack.rstack_run_pushes vs (RStack.init Int)
    have hsome1 := hsome (by simp [RStack.init])
    have hlen1 : (RStack.run (vs.map Op.push) (RStack.init Int)).2.chain.length
        = vs.length := by
      rw [hlen]
      simp [RStack.init]
    have hcont1 : (RStack.run (vs.map Op.push) (RStack.init Int)).2.contents
        = vs.reverse := by
      rw [hcont]
      simp [RStack.init, RStack.contents]
    have hpops := RStack.rstack_run_pops
      (RStack.run (vs.map Op.push) (RStack.init Int)).2.chain
      (RStack.run (vs.map Op.push) (RStack.init Int)).2.headExt
      (RStack.run (vs.map Op.push) (RStack.init Int)).2.count hsome1
    rw [hlen1] at hpops
    rw [RStack.rstack_run_append]
    simp only [viewOf, List.map_append] at hview hpops ⊢
    rw [hview, hpops, hcont1]
  · intro b vs
    obtain ⟨hview, hchain, _⟩ := HPStack.hpstack_run_pushes vs (HPStack.init Int b)
    have hchain1 : (HPStack.run (vs.map Op.push) (HPStack.init Int b)).2.chain
        = vs.reverse := by
      rw [hchain]
      simp [HPStack.init]
    have hpops := HPStack.hpstack_run_pops
      (HPStack.run (vs.map Op.push) (HPStack.init Int b)).2.chain
      (HPStack.run (vs.map Op.push) (HPStack.init Int b)).2.bufsize
    rw [hchain1] at hpops
    have hlenrev : vs.reverse.length = vs.length := List.length_reverse vs
    rw [hlenrev] at hpops
    rw [HPStack.hpstack_run_append]
    simp only [viewOf, List.map_append] at hview hpops ⊢
    rw [hview]
    rw [show (HPStack.run (List.replicate (vs.length + 1) Op.pop)
      (HPStack.run (List.map Op.push vs) (HPStack.init Int b)).2)
      = (HPStack.run (List.replicate (vs.length + 1) Op.pop)
        ⟨(HPStack.run (List.map Op.push vs) (HPStack.init Int b)).2.bufsize,
         (HPStack.run (List.map Op.push vs) (HPStack.init Int b)).2.chain⟩)
      from rfl]
    rw [hchain1, hpops]

/-- Claim C5.  FIFO order, single-threaded: pushing `vs` and then popping
`|vs| + 1` times pops exactly `vs` in push order and then reports empty, on
`mpmc_bounded_queue` (capacity `2 ^ k`, `1 ≤ k ≤ 32`, `|vs| ≤ 2 ^ k`) and on
`lock_queue` (`|vs|` within the soft capacity); in particular pushes of
1, 2, 3 on a capacity-4 `mpmc_bounded_queue` are drained as 1, 2, 3 and then
a pop returns `false`. -/
theorem claim_C5_fifo :
    (∀ (k : Nat) (vs : List Int), 1 ≤ k → k ≤ 32 → vs.length ≤ 2 ^ k →
      ∃ tr s2, MPMC.run (vs.map Op.push ++ List.replicate (vs.length + 1)
          Op.pop) (MPMC.make Int (2 ^ k)) = some (tr, s2)
        ∧ viewOf tr = vs.map (fun _ => (true, none))
            ++ (vs.map (fun x => (true, some x)) ++ [(false, none)]))
    ∧ (∀ (b : Nat) (vs : List Int), b < w64 → vs.length ≤ b →
      viewOf (LQueue.run (vs.map Op.push ++ List.replicate (vs.length + 1)
          Op.pop) (LQueue.init Int b)).1
        = vs.map (fun _ => (true, none))
            ++ (vs.map (fun x => (true, some x)) ++ [(false, none)]))
    ∧ (MPMC.run (([1, 2, 3] : List Int).map Op.push ++ List.replicate 4 Op.pop)
          (MPMC.make Int 4)).map (fun p => viewOf p.1)
        = some [(true, none), (true, none), (true, none),
                (true, some 1), (true, some 2), (true, some 3),
                (false, none)] := by
  refine ⟨?_, ?_, by decide⟩
  · intro k vs hk1 hk hcap
    obtain ⟨hInvM, hE0, hD0, hC0⟩ := MPMC.make_inv k
    have hk32 : 2 ^ k ≤ 2 ^ 32 := Nat.pow_le_pow_right (by omega) hk
    obtain ⟨tr1, s1, hrun1, hInv1, hview1, hcont1, hE1, hD1⟩ :=
      MPMC.mpmc_run_pushes k hk1 hk vs _ hInvM
        (by rw [hE0]; omega)
        (by rw [hE0, hD0]; omega)
    rw [hC0] at hcont1
    simp only [List.nil_append] at hcont1
    obtain ⟨tr2, s2, hrun2, hview2⟩ :=
      MPMC.mpmc_run_pops k hk vs s1 hInv1 (by rw [hE1, hE0]; omega) hcont1
    refine ⟨tr1 ++ tr2, s2, ?_, ?_⟩
    · rw [MPMC.mpmc_run_append _ _ _ _ _ hrun1, hrun2]
      rfl
    · simp only [viewOf, List.map_append] at hview1 hview2 ⊢
      rw [hview1, hview2]
  · intro b vs hb hcap
    obtain ⟨hview1, hpend1, hcnt1, hbs1⟩ :=
      LQueue.lqueue_run_pushes vs (LQueue.init Int b) rfl hb
        (by simpa [LQueue.init] using hcap)
    have hpend1' : (LQueue.run (vs.map Op.push) (LQueue.init Int b)).2.pending
        = vs := by simpa [LQueue.init] using hpend1
    have hpops := LQueue.lqueue_run_pops
      (LQueue.run (vs.map Op.push) (LQueue.init Int b)).2.pending
      (LQueue.run (vs.map Op.push) (LQueue.init Int b)).2.consumed
      (LQueue.run (vs.map Op.push) (LQueue.init Int b)).2.count
      (LQueue.run (vs.map Op.push) (LQueue.init Int b)).2.bufsize
    rw [hpend1'] at hpops
    rw [LQueue.lqueue_run_append]
    simp only [viewOf, List.map_append] at hview1 hpops ⊢
    rw [hview1]
    rw [show (LQueue.run (List.replicate (vs.length + 1) Op.pop)
      (LQueue.run (List.map Op.push vs) (LQueue.init Int b)).2)
      = (LQueue.run (List.replicate (vs.length + 1) Op.pop)
        ⟨(LQueue.run (List.map Op.push vs) (LQueue.init Int b)).2.pending,
         (LQueue.run (List.map Op.push vs) (LQueue.init Int b)).2.consumed,
         (LQueue.run (List.map Op.push vs) (LQueue.init Int b)).2.count,
         (LQueue.run (List.map Op.push vs) (LQueue.init Int b)).2.bufsize⟩)
      from rfl]
    rw [hpend1', hpops]

/-- Witness for C5: the concrete capacity-4 scenario on both queues. -/
theorem claim_C5_witness :
    (MPMC.run (([1, 2, 3] : List Int).map Op.push
        ++ List.replicate (([1, 2, 3] : List Int).length + 1) Op.pop)
        (MPMC.make Int (2 ^ 2))).map (fun p => viewOf p.1)
      = some ([1, 2, 3].map (fun _ => ((true : Bool), (none : Option Int)))
          ++ ([1, 2, 3].map (fun x => (true, some x)) ++ [(false, none)]))
    ∧ viewOf (LQueue.run (([1, 2, 3] : List Int).map Op.push
        ++ List.replicate (([1, 2, 3] : List Int).length + 1) Op.pop)
        (LQueue.init Int 4)).1
      = [1, 2, 3].map (fun _ => ((true : Bool), (none : Option Int)))
          ++ ([1, 2, 3].map (fun x => (true, some x)) ++ [(false, none)]) := by
  constructor
  · obtain ⟨tr, s2, hrun, hview⟩ :=
      claim_C5_fifo.1 2 [1, 2, 3] (by decide) (by decide) (by decide)
    rw [hrun]
    simp only [Option.map_some']
    rw [hview]
    rfl
  · exact claim_C5_fifo.2.1 4 [1, 2, 3] (by decide) (by decide)

end LockFreeSandbox
